import Mathlib

/-!
# Verification of the github-readme-generator core

A shallow embedding of the repository's core algorithms:

* `parseGitHubUrl` (handlers/fetch_github_repo.ts) — URL → (owner, repo),
* `makeGitHubApiRequest`'s HTTP-status classification,
* `buildFileTree` — reconstruction of a nested file tree from GitHub's flat
  recursive tree listing,
* `fetchGitHubFileTree`'s large-repository reduction,
* `generateMarkdownReadme` and its helpers (markdown rendering),
* `deleteReadme` (handlers, delete by identifier over the persisted table).

Strings are modelled as `List Char` (the sequence of Unicode code points of a
JavaScript string); `strL` injects Lean string literals.  Mutable JS objects
in `buildFileTree` are modelled with an explicit store of nodes addressed by
allocation index, which captures the aliasing between the `directoryMap`, the
`root` array and nodes already attached as children.
-/

/-- Code points of a string literal, the `List Char` view used throughout. -/
def strL (s : String) : List Char := s.data

/-! ## Splitting and joining on a separator character

`splitOnC c` is the embedding of JavaScript `String.prototype.split` with a
single-character separator; `joinWith sep` embeds `Array.prototype.join`. -/

/-- Worker for `splitOnC`: the first chunk and the remaining chunks. -/
def splitOnCA (c : Char) : List Char → List Char × List (List Char)
  | [] => ([], [])
  | a :: rest =>
    let p := splitOnCA c rest
    if a = c then ([], p.1 :: p.2) else (a :: p.1, p.2)

/-- JS `s.split(c)` for a one-character separator: the (always nonempty) list
of maximal separator-free chunks. -/
def splitOnC (c : Char) (l : List Char) : List (List Char) :=
  (splitOnCA c l).1 :: (splitOnCA c l).2

/-- JS `parts.join(sep)`. -/
def joinWith (sep : List Char) : List (List Char) → List Char
  | [] => []
  | [x] => x
  | x :: y :: ys => x ++ sep ++ joinWith sep (y :: ys)

theorem joinWith_cons_cons (sep : List Char) (x y : List Char)
    (ys : List (List Char)) :
    joinWith sep (x :: y :: ys) = x ++ sep ++ joinWith sep (y :: ys) := rfl

theorem splitOnC_ne_nil (c : Char) (l : List Char) : splitOnC c l ≠ [] := by
  simp [splitOnC]

theorem splitOnCA_sep_free (c : Char) (l : List Char) :
    c ∉ (splitOnCA c l).1 ∧ ∀ s ∈ (splitOnCA c l).2, c ∉ s := by
  induction l with
  | nil => simp [splitOnCA]
  | cons a rest ih =>
    by_cases h : a = c
    · subst h
      simp only [splitOnCA, if_pos rfl]
      refine ⟨by simp, ?_⟩
      intro s hs
      rcases List.mem_cons.mp hs with rfl | hs
      · exact ih.1
      · exact ih.2 s hs
    · simp only [splitOnCA, if_neg h]
      refine ⟨?_, ih.2⟩
      intro hmem
      rcases List.mem_cons.mp hmem with rfl | hmem
      · exact h rfl
      · exact ih.1 hmem

theorem splitOnC_sep_free (c : Char) (l : List Char) :
    ∀ s ∈ splitOnC c l, c ∉ s := by
  intro s hs
  rcases List.mem_cons.mp hs with rfl | hs
  · exact (splitOnCA_sep_free c l).1
  · exact (splitOnCA_sep_free c l).2 s hs

theorem joinWith_splitOnC (c : Char) (l : List Char) :
    joinWith [c] (splitOnC c l) = l := by
  simp only [splitOnC]
  induction l with
  | nil => simp [splitOnCA, joinWith]
  | cons a rest ih =>
    by_cases h : a = c
    · subst h
      simp only [splitOnCA, eq_self_iff_true, if_true]
      rw [joinWith_cons_cons]
      simp [ih]
    · simp only [splitOnCA, if_neg h]
      cases htl : (splitOnCA c rest).2 with
      | nil =>
        rw [htl] at ih
        simp only [joinWith] at ih ⊢
        simp [ih]
      | cons y ys =>
        rw [htl] at ih
        rw [joinWith_cons_cons] at ih ⊢
        simp only [List.cons_append, List.append_assoc, List.nil_append] at ih ⊢
        simp [ih]

theorem splitOnCA_sep_free_eq (c : Char) (l : List Char) (h : c ∉ l) :
    splitOnCA c l = (l, []) := by
  induction l with
  | nil => simp [splitOnCA]
  | cons a rest ih =>
    have hac : a ≠ c := fun hc => h (hc ▸ List.mem_cons_self a rest)
    have hrest : c ∉ rest := fun hc => h (List.mem_cons_of_mem a hc)
    simp [splitOnCA, hac, ih hrest]

theorem splitOnC_sep_free_eq (c : Char) (l : List Char) (h : c ∉ l) :
    splitOnC c l = [l] := by
  simp [splitOnC, splitOnCA_sep_free_eq c l h]

theorem splitOnCA_append_sep (c : Char) (a b : List Char) (h : c ∉ a) :
    splitOnCA c (a ++ c :: b) = (a, (splitOnCA c b).1 :: (splitOnCA c b).2) := by
  induction a with
  | nil => simp [splitOnCA]
  | cons x xs ih =>
    have hxc : x ≠ c := fun hc => h (hc ▸ List.mem_cons_self x xs)
    have hxs : c ∉ xs := fun hc => h (List.mem_cons_of_mem x hc)
    simp [splitOnCA, hxc, ih hxs]

theorem splitOnC_append_sep (c : Char) (a b : List Char) (h : c ∉ a) :
    splitOnC c (a ++ c :: b) = a :: splitOnC c b := by
  simp [splitOnC, splitOnCA_append_sep c a b h]

theorem splitOnC_joinWith (c : Char) (xs : List (List Char)) (hne : xs ≠ [])
    (hfree : ∀ x ∈ xs, c ∉ x) : splitOnC c (joinWith [c] xs) = xs := by
  induction xs with
  | nil => exact absurd rfl hne
  | cons x rest ih =>
    cases rest with
    | nil => simpa [joinWith] using splitOnC_sep_free_eq c x (hfree x (by simp))
    | cons y ys =>
      have hjoin : joinWith [c] (x :: y :: ys) = x ++ c :: joinWith [c] (y :: ys) := by
        rw [joinWith_cons_cons]; simp
      rw [hjoin, splitOnC_append_sep c x _ (hfree x (by simp)),
        ih (by simp) (fun z hz => hfree z (List.mem_cons_of_mem x hz))]


/-! ## Path segments

GitHub tree entries carry a `/`-separated `path`; `buildFileTree` works with
`path.split('/')` and re-joins with `'/'`. -/

/-- `path.split('/')` from the source. -/
def splitSeg (p : List Char) : List (List Char) := splitOnC '/' p

/-- `parts.join('/')` from the source. -/
def joinSeg (parts : List (List Char)) : List Char := joinWith ['/'] parts

/-- `pathParts.slice(0, -1).join('/')`: the immediate parent path. -/
def parentPathOf (p : List Char) : List Char := joinSeg (splitSeg p).dropLast

/-! ## The locale collation model

`buildFileTree` breaks ties with `a.path.localeCompare(b.path)`.  Under the
default locale (ICU root collation, as implemented by Node and Bun), ASCII
letters collate alphabetically with case ignored at primary strength —
`"package.json"` sorts before `"README.md"` — and lowercase sorts before
uppercase when the primary weights agree.  `localeCompareModel` is that
collation restricted to the ASCII repertoire: a primary pass over case-folded
letter classes, then a case-level pass. -/

/-- Primary collation weight of a character: letters (case-folded) collate
together above all other ASCII code points, in alphabetical order. -/
def primaryWeight (ch : Char) : Nat :=
  if 'A' ≤ ch ∧ ch ≤ 'Z' then 1000 + (ch.toNat - 'A'.toNat)
  else if 'a' ≤ ch ∧ ch ≤ 'z' then 1000 + (ch.toNat - 'a'.toNat)
  else ch.toNat

/-- Case-level weight: lowercase before uppercase. -/
def caseWeight (ch : Char) : Nat :=
  if 'A' ≤ ch ∧ ch ≤ 'Z' then 1 else 0

/-- Lexicographic comparison of weight sequences. -/
def compareLexNat : List Nat → List Nat → Ordering
  | [], [] => .eq
  | [], _ :: _ => .lt
  | _ :: _, [] => .gt
  | a :: as, b :: bs =>
    if a < b then .lt else if b < a then .gt else compareLexNat as bs

/-- `Ordering` as the sign of a JS comparator result. -/
def ordToInt : Ordering → Int
  | .lt => -1
  | .eq => 0
  | .gt => 1

/-- Model of `a.localeCompare(b)` (default locale, ASCII repertoire): compare
all primary weights first, then the case weights. -/
def localeCompareModel (a b : List Char) : Int :=
  match compareLexNat (a.map primaryWeight) (b.map primaryWeight) with
  | .eq => ordToInt (compareLexNat (a.map caseWeight) (b.map caseWeight))
  | o => ordToInt o

/-! ## Tree entries and nodes -/

/-- The `type` tag of a raw GitHub tree entry. -/
inductive EntryKind where
  | blob
  | tree
deriving DecidableEq, Repr

/-- A raw entry of the `GitHubTreeResponse` flat listing (only the fields the
algorithm reads). -/
structure TreeEntry where
  path : List Char
  kind : EntryKind
deriving DecidableEq, Repr

/-- The `type` of a reconstructed `FileTreeNode`. -/
inductive NodeType where
  | file
  | directory
deriving DecidableEq, Repr

/-- The reconstructed hierarchical node (schema `fileTreeNodeSchema`):
`children` is `undefined` (`none`) for files and an array for directories. -/
inductive FileTreeNode where
  | mk (name : List Char) (type : NodeType) (path : List Char)
       (children : Option (List FileTreeNode))

def FileTreeNode.name : FileTreeNode → List Char
  | .mk n _ _ _ => n

def FileTreeNode.type : FileTreeNode → NodeType
  | .mk _ t _ _ => t

def FileTreeNode.path : FileTreeNode → List Char
  | .mk _ _ p _ => p

def FileTreeNode.children : FileTreeNode → Option (List FileTreeNode)
  | .mk _ _ _ c => c

/-! ## The sort

```
const sortedItems = treeItems.sort((a, b) => {
  if (a.type === 'tree' && b.type === 'blob') return -1;
  if (a.type === 'blob' && b.type === 'tree') return 1;
  return a.path.localeCompare(b.path);
});
```
`Array.prototype.sort` is required (ES2019) to be a stable sort consistent
with the comparator; for a consistent comparator the stable sorted order is
unique, so we model it with a stable insertion sort. -/

/-- The comparator of `buildFileTree`. -/
def entryCompare (a b : TreeEntry) : Int :=
  if a.kind = .tree ∧ b.kind = .blob then -1
  else if a.kind = .blob ∧ b.kind = .tree then 1
  else localeCompareModel a.path b.path

/-- `entryCompare` as a boolean "less or equal". -/
def entryLe (a b : TreeEntry) : Bool := entryCompare a b ≤ 0

/-- Insert an element in front of the first entry it compares `≤` to; ties
keep the inserted (originally earlier) element first, which is stability. -/
def insertSorted (a : TreeEntry) : List TreeEntry → List TreeEntry
  | [] => [a]
  | b :: rest => if entryLe a b then a :: b :: rest else b :: insertSorted a rest

/-- `treeItems.sort(comparator)`: the stable sort by `entryLe`. -/
def sortEntries (l : List TreeEntry) : List TreeEntry := l.foldr insertSorted []

/-! ## The builder state

JS objects are shared between `root`, `directoryMap` and the `children`
arrays; we give each allocated node an index into `store` and let the three
structures hold indices. -/

/-- One allocated node: `children` holds store indices. -/
structure NodeData where
  name : List Char
  type : NodeType
  path : List Char
  children : Option (List Nat)
deriving DecidableEq, Repr

/-- The loop state of `buildFileTree`. -/
structure BuildState where
  store : List NodeData
  root : List Nat
  dirMap : List (List Char × Nat)
deriving Repr

/-- `directoryMap.get(key)`; insertion is modelled by consing, so the first
hit is the most recent `set`. -/
def mapLookup (m : List (List Char × Nat)) (k : List Char) : Option Nat :=
  match m with
  | [] => none
  | (k₂, v) :: rest => if k₂ = k then some v else mapLookup rest k

/-- `item.type === 'tree' ? 'directory' : 'file'`. -/
def nodeTypeOf (k : EntryKind) : NodeType :=
  if k = .tree then .directory else .file

/-- The `const node: FileTreeNode = {...}` literal built for an entry:
name is the last path segment, a directory starts with an empty children
array, a file has no children field. -/
def entryNode (item : TreeEntry) : NodeData :=
  { name := (splitSeg item.path).getLastD []
    type := nodeTypeOf item.kind
    path := item.path
    children := if item.kind = .tree then some [] else none }

/-- One iteration of the `for (const item of sortedItems)` loop. -/
def processItem (st : BuildState) (item : TreeEntry) : BuildState :=
  let parts := splitSeg item.path
  let node : NodeData := entryNode item
  if parts.length = 1 then
    -- root level item
    let id := st.store.length
    { store := st.store ++ [node]
      root := st.root ++ [id]
      dirMap := if item.kind = .tree then (item.path, id) :: st.dirMap else st.dirMap }
  else
    -- nested item: find parent directory
    let parent := parentPathOf item.path
    match mapLookup st.dirMap parent with
    | none => st
    | some pid =>
      match st.store[pid]? with
      | none => st
      | some pd =>
        match pd.children with
        | none => st
        | some cs =>
          let id := st.store.length
          { store := (st.store.set pid { pd with children := some (cs ++ [id]) }) ++ [node]
            root := st.root
            dirMap := if item.kind = .tree then (item.path, id) :: st.dirMap else st.dirMap }

/-- The state after the whole loop. -/
def buildState (treeItems : List TreeEntry) : BuildState :=
  (sortEntries treeItems).foldl processItem ⟨[], [], []⟩

/-! ## Reading the final object graph back

Dereference the store into the nested `FileTreeNode` value the caller
observes.  The recursion is bounded by an explicit budget; children indices
are always allocated strictly after their parent, so a budget of
`store.length` dereferences every reachable node (proved below where the
claims need it). -/

/-- Dereference store index `id` into a `FileTreeNode`, with recursion budget
`fuel`. -/
def resolveNode (store : List NodeData) : Nat → Nat → Option FileTreeNode
  | 0, _ => none
  | fuel + 1, id =>
    match store[id]? with
    | none => none
    | some d =>
      some (.mk d.name d.type d.path
        (match d.children with
         | none => none
         | some cids => some (cids.filterMap (resolveNode store fuel))))

/-- `buildFileTree` from handlers/fetch_github_repo.ts: sort, fold, and read
back the root array. -/
def buildFileTree (treeItems : List TreeEntry) : List FileTreeNode :=
  let st := buildState treeItems
  st.root.filterMap (resolveNode st.store st.store.length)

/-! ## Order-theoretic facts about the comparator

`Array.prototype.sort` requires (and `List.mergeSort`'s sortedness theorem
uses) a total, transitive comparator. -/

theorem compareLexNat_eq_iff (a : List Nat) : ∀ b : List Nat,
    compareLexNat a b = .eq ↔ a = b := by
  induction a with
  | nil => intro b; cases b <;> simp [compareLexNat]
  | cons x xs ih =>
    intro b
    cases b with
    | nil => simp [compareLexNat]
    | cons y ys =>
      by_cases h1 : x < y
      · simp only [compareLexNat, if_pos h1]
        constructor
        · intro h; simp at h
        · intro h
          injection h with h2 h3
          omega
      · by_cases h2 : y < x
        · simp only [compareLexNat, if_neg h1, if_pos h2]
          constructor
          · intro h; simp at h
          · intro h; injection h with h3 h4; omega
        · have hxy : x = y := by omega
          subst hxy
          simp only [compareLexNat, if_neg h1, if_neg h2]
          rw [ih ys]
          constructor
          · intro h; rw [h]
          · intro h; injection h

theorem compareLexNat_swap (a : List Nat) : ∀ b : List Nat,
    compareLexNat b a = (compareLexNat a b).swap := by
  induction a with
  | nil => intro b; cases b <;> simp [compareLexNat, Ordering.swap]
  | cons x xs ih =>
    intro b
    cases b with
    | nil => simp [compareLexNat, Ordering.swap]
    | cons y ys =>
      rcases Nat.lt_trichotomy x y with h | h | h
      · simp only [compareLexNat, if_pos h, if_neg (by omega : ¬ y < x), Ordering.swap]
      · subst h
        simp only [compareLexNat, if_neg (by omega : ¬ x < x)]
        exact ih ys
      · simp only [compareLexNat, if_pos h, if_neg (by omega : ¬ x < y), Ordering.swap]

theorem compareLexNat_lt_trans {a b c : List Nat} :
    compareLexNat a b = .lt → compareLexNat b c = .lt → compareLexNat a c = .lt := by
  induction a generalizing b c with
  | nil =>
    cases b <;> cases c <;> simp [compareLexNat]
  | cons x xs ih =>
    cases b with
    | nil => cases c <;> simp [compareLexNat]
    | cons y ys =>
      cases c with
      | nil => simp [compareLexNat]
      | cons z zs =>
        intro h1 h2
        rcases Nat.lt_trichotomy x y with hxy | hxy | hxy
        · rcases Nat.lt_trichotomy y z with hyz | hyz | hyz
          · simp [compareLexNat, show x < z by omega]
          · subst hyz; simp [compareLexNat, hxy]
          · exfalso
            simp only [compareLexNat, if_neg (by omega : ¬ y < z),
              if_pos hyz] at h2
            simp at h2
        · subst hxy
          rcases Nat.lt_trichotomy x z with hyz | hyz | hyz
          · simp [compareLexNat, hyz]
          · subst hyz
            simp only [compareLexNat, if_neg (by omega : ¬ x < x)] at h1 h2 ⊢
            exact ih h1 h2
          · exfalso
            simp only [compareLexNat, if_neg (by omega : ¬ x < z),
              if_pos hyz] at h2
            simp at h2
        · exfalso
          simp only [compareLexNat, if_neg (by omega : ¬ x < y), if_pos hxy] at h1
          simp at h1

theorem compareLexNat_notGt_trans {a b c : List Nat}
    (h1 : compareLexNat a b ≠ .gt) (h2 : compareLexNat b c ≠ .gt) :
    compareLexNat a c ≠ .gt := by
  cases hab : compareLexNat a b with
  | gt => exact absurd hab h1
  | eq =>
    rw [(compareLexNat_eq_iff a b).mp hab]
    exact h2
  | lt =>
    cases hbc : compareLexNat b c with
    | gt => exact absurd hbc h2
    | eq =>
      rw [← (compareLexNat_eq_iff b c).mp hbc]
      rw [hab]
      simp
    | lt =>
      rw [compareLexNat_lt_trans hab hbc]
      simp

theorem compareLexNat_prefix_lt (l : List Nat) {m : List Nat} (hm : m ≠ []) :
    compareLexNat l (l ++ m) = .lt := by
  induction l with
  | nil =>
    cases m with
    | nil => exact absurd rfl hm
    | cons z zs => simp [compareLexNat]
  | cons x xs ih => simp [compareLexNat, ih]

/-- `localeCompareModel a b ≤ 0`, unfolded into the two collation passes. -/
theorem localeCompareModel_le_iff (a b : List Char) :
    localeCompareModel a b ≤ 0 ↔
      compareLexNat (a.map primaryWeight) (b.map primaryWeight) = .lt ∨
      (compareLexNat (a.map primaryWeight) (b.map primaryWeight) = .eq ∧
       compareLexNat (a.map caseWeight) (b.map caseWeight) ≠ .gt) := by
  unfold localeCompareModel
  cases h : compareLexNat (a.map primaryWeight) (b.map primaryWeight) with
  | lt => simp [ordToInt]
  | gt => simp [ordToInt]
  | eq =>
    cases h2 : compareLexNat (a.map caseWeight) (b.map caseWeight) with
    | lt => simp [ordToInt, h2]
    | eq => simp [ordToInt, h2]
    | gt => simp [ordToInt, h2]

theorem localeCompareModel_swap (a b : List Char) :
    localeCompareModel b a = -localeCompareModel a b := by
  unfold localeCompareModel
  rw [compareLexNat_swap (a.map primaryWeight) (b.map primaryWeight),
    compareLexNat_swap (a.map caseWeight) (b.map caseWeight)]
  cases compareLexNat (a.map primaryWeight) (b.map primaryWeight) <;>
    cases compareLexNat (a.map caseWeight) (b.map caseWeight) <;>
      simp [Ordering.swap, ordToInt]

theorem localeCompareModel_le_trans {a b c : List Char}
    (h1 : localeCompareModel a b ≤ 0) (h2 : localeCompareModel b c ≤ 0) :
    localeCompareModel a c ≤ 0 := by
  rw [localeCompareModel_le_iff] at h1 h2 ⊢
  rcases h1 with h1 | ⟨h1, h1c⟩
  · rcases h2 with h2 | ⟨h2, h2c⟩
    · exact Or.inl (compareLexNat_lt_trans h1 h2)
    · rw [← (compareLexNat_eq_iff _ _).mp h2]
      exact Or.inl h1
  · rcases h2 with h2 | ⟨h2, h2c⟩
    · rw [(compareLexNat_eq_iff _ _).mp h1]
      exact Or.inl h2
    · right
      constructor
      · rw [(compareLexNat_eq_iff _ _).mp h1]
        exact h2
      · have hbc : (b.map caseWeight) = ((b.map caseWeight)) := rfl
        exact compareLexNat_notGt_trans h1c h2c

/-- A strict prefix collates strictly before any proper extension. -/
theorem localeCompareModel_prefix_lt (q : List Char) {m : List Char} (hm : m ≠ []) :
    localeCompareModel q (q ++ m) ≤ -1 := by
  unfold localeCompareModel
  have : compareLexNat (q.map primaryWeight) ((q ++ m).map primaryWeight) = .lt := by
    rw [List.map_append]
    exact compareLexNat_prefix_lt (q.map primaryWeight)
      (by simpa using hm)
  rw [this]
  simp [ordToInt]

theorem entryCompare_swap (a b : TreeEntry) : entryCompare b a = -entryCompare a b := by
  unfold entryCompare
  cases ha : a.kind <;> cases hb : b.kind <;> simp <;>
    exact localeCompareModel_swap _ _

theorem entryLe_eq_true_iff (a b : TreeEntry) :
    entryLe a b = true ↔ entryCompare a b ≤ 0 := by
  simp [entryLe]

theorem entryLe_total (a b : TreeEntry) : (entryLe a b || entryLe b a) = true := by
  by_cases h : entryCompare a b ≤ 0
  · simp [entryLe_eq_true_iff, h]
  · have hswap : entryCompare b a ≤ 0 := by
      rw [entryCompare_swap]; omega
    simp [entryLe_eq_true_iff, hswap]

theorem entryLe_trans (a b c : TreeEntry) :
    entryLe a b = true → entryLe b c = true → entryLe a c = true := by
  rw [entryLe_eq_true_iff, entryLe_eq_true_iff, entryLe_eq_true_iff]
  unfold entryCompare
  cases hak : a.kind <;> cases hbk : b.kind <;> cases hck : c.kind <;>
    simp <;> intro h1 h2 <;>
      first
        | omega
        | exact localeCompareModel_le_trans h1 h2

theorem insertSorted_perm (a : TreeEntry) (l : List TreeEntry) :
    (insertSorted a l).Perm (a :: l) := by
  induction l with
  | nil => simp [insertSorted]
  | cons b rest ih =>
    by_cases h : entryLe a b
    · simp [insertSorted, h]
    · simp only [insertSorted, if_neg h]
      exact (ih.cons b).trans (List.Perm.swap a b rest)

/-- The sorted list is a permutation of the input. -/
theorem sortEntries_perm (l : List TreeEntry) : (sortEntries l).Perm l := by
  induction l with
  | nil => simp [sortEntries]
  | cons a rest ih =>
    exact (insertSorted_perm a (rest.foldr insertSorted [])).trans (ih.cons a)

theorem insertSorted_pairwise {a : TreeEntry} {l : List TreeEntry}
    (h : List.Pairwise (fun x y => entryLe x y = true) l) :
    List.Pairwise (fun x y => entryLe x y = true) (insertSorted a l) := by
  induction l with
  | nil => simp [insertSorted]
  | cons b rest ih =>
    rcases List.pairwise_cons.mp h with ⟨hb, hrest⟩
    by_cases hab : entryLe a b
    · simp only [insertSorted, if_pos hab]
      refine List.pairwise_cons.mpr ⟨?_, h⟩
      intro y hy
      rcases List.mem_cons.mp hy with rfl | hy
      · exact hab
      · exact entryLe_trans a b y hab (hb y hy)
    · simp only [insertSorted, if_neg hab]
      refine List.pairwise_cons.mpr ⟨?_, ih hrest⟩
      intro y hy
      rcases List.mem_cons.mp ((insertSorted_perm a rest).mem_iff.mp hy) with rfl | hy
      · have htot := entryLe_total y b
        simp only [Bool.or_eq_true] at htot
        rcases htot with h1 | h1
        · exact absurd h1 hab
        · exact h1
      · exact hb y hy

/-- The sorted list is pairwise ordered by the comparator. -/
theorem sortEntries_sorted (l : List TreeEntry) :
    List.Pairwise (fun a b => entryLe a b = true) (sortEntries l) := by
  induction l with
  | nil => simp [sortEntries]
  | cons a rest ih => exact insertSorted_pairwise ih

/-- What one comparator step means: a `blob` never precedes a `tree`, and
within equal kind the locale collation of the paths is nondecreasing. -/
theorem entryLe_spec {a b : TreeEntry} (h : entryLe a b = true) :
    (b.kind = .tree → a.kind = .tree) ∧
    (a.kind = b.kind → localeCompareModel a.path b.path ≤ 0) := by
  rw [entryLe_eq_true_iff] at h
  unfold entryCompare at h
  cases hak : a.kind <;> cases hbk : b.kind <;>
    simp [hak, hbk] at h ⊢ <;> first | exact h | omega

/-! ## Claim C1 — the reconstruction sort -/

/-- The flat input of claim C1's scenario (the repository's own test data):
README.md (blob), src (tree), src/index.ts (blob), package.json (blob). -/
def c1Input : List TreeEntry :=
  [⟨strL "README.md", .blob⟩, ⟨strL "src", .tree⟩,
   ⟨strL "src/index.ts", .blob⟩, ⟨strL "package.json", .blob⟩]

/-- C1, counterexample: on the claimed input the root sequence produced by
`buildFileTree` is src, package.json, README.md — `localeCompare` under the
default locale orders "package.json" before "README.md" (case-insensitive
primary strength), so the claimed root sequence
[src, README.md, package.json] is not produced. -/
theorem c1_counterexample :
    (buildFileTree c1Input).map (fun n => (n.name, n.type)) =
      [(strL "src", .directory), (strL "package.json", .file),
       (strL "README.md", .file)] ∧
    ¬ (buildFileTree c1Input).map (fun n => (n.name, n.type)) =
      [(strL "src", .directory), (strL "README.md", .file),
       (strL "package.json", .file)] := by
  constructor
  · decide
  · decide

/-- C1 (amended): the tree reconstructor sorts the flat entry list with kind
as the primary key (every `tree`-kind entry precedes every `blob`-kind entry)
and the default-locale collation order of the paths (`localeCompare`, which
orders "package.json" before "README.md") as the tie-break within equal kind,
before building the nested tree; consequently, for the input
[README.md blob, src tree, src/index.ts blob, package.json blob] the root
sequence is [src(directory), package.json(file), README.md(file)]. -/
theorem c1_sort_precedence :
    (∀ l : List TreeEntry,
      (sortEntries l).Perm l ∧
      List.Pairwise (fun a b =>
        (b.kind = .tree → a.kind = .tree) ∧
        (a.kind = b.kind → localeCompareModel a.path b.path ≤ 0))
        (sortEntries l)) ∧
    (buildFileTree c1Input).map (fun n => (n.name, n.type)) =
      [(strL "src", .directory), (strL "package.json", .file),
       (strL "README.md", .file)] := by
  refine ⟨fun l => ⟨sortEntries_perm l, ?_⟩, by decide⟩
  exact (sortEntries_sorted l).imp (fun h => entryLe_spec h)

/-! ## Traversing reconstructed forests -/

mutual

/-- All nodes of a subtree, the node itself first. -/
def nodeNodes : FileTreeNode → List FileTreeNode
  | .mk n t p c =>
    .mk n t p c :: (match c with | none => [] | some cs => forestNodes cs)

/-- All nodes of a forest. -/
def forestNodes : List FileTreeNode → List FileTreeNode
  | [] => []
  | n :: rest => nodeNodes n ++ forestNodes rest

end

theorem forestNodes_append (xs ys : List FileTreeNode) :
    forestNodes (xs ++ ys) = forestNodes xs ++ forestNodes ys := by
  induction xs with
  | nil => simp [forestNodes]
  | cons n rest ih => simp [forestNodes, ih]

/-! ## The fold-invariant principle for the builder loop -/

/-- An invariant that relates the loop state to the already-processed prefix
and the remaining suffix of the sorted entry list is preserved through
`buildState`. -/
theorem buildState_fold_inv (l : List TreeEntry)
    (P : BuildState → List TreeEntry → List TreeEntry → Prop)
    (h0 : P ⟨[], [], []⟩ [] (sortEntries l))
    (hstep : ∀ st done e rest, sortEntries l = done ++ e :: rest →
      P st done (e :: rest) → P (processItem st e) (done ++ [e]) rest) :
    P (buildState l) (sortEntries l) [] := by
  suffices h : ∀ rest done st, sortEntries l = done ++ rest →
      P st done rest → P (rest.foldl processItem st) (done ++ rest) [] by
    simpa using h (sortEntries l) [] ⟨[], [], []⟩ (by simp) h0
  intro rest
  induction rest with
  | nil =>
    intro done st h1 h2
    simpa using h2
  | cons e rest2 ih =>
    intro done st h1 h2
    have h3 := hstep st done e rest2 h1 h2
    have h4 : sortEntries l = (done ++ [e]) ++ rest2 := by simp [h1]
    have h5 := ih (done ++ [e]) (processItem st e) h4 h3
    simpa using h5

/-- Where a node of the post-step store comes from: it was already present,
it is the node allocated for `e`, or it is a present node whose children
array gained the index of the node allocated for `e`. -/
theorem processItem_store_cases (st : BuildState) (e : TreeEntry) (i : Nat)
    (d : NodeData) (h : (processItem st e).store[i]? = some d) :
    st.store[i]? = some d ∨
    (d = entryNode e ∧ ((splitSeg e.path).length = 1 ∨
      ∃ pid, mapLookup st.dirMap (parentPathOf e.path) = some pid)) ∨
    (∃ pd cs, st.store[i]? = some pd ∧ pd.children = some cs ∧
      d = { pd with children := some (cs ++ [st.store.length]) }) := by
  simp only [processItem] at h
  split at h
  · -- root-level branch
    next hlen =>
    dsimp only at h
    rcases Nat.lt_trichotomy i st.store.length with hi | hi | hi
    · left; rwa [List.getElem?_append_left hi] at h
    · right; left
      subst hi
      rw [List.getElem?_concat_length] at h
      exact ⟨(Option.some.injEq _ _).mp h.symm, Or.inl hlen⟩
    · exfalso
      rw [List.getElem?_append_right (by omega)] at h
      rw [List.getElem?_eq_none (by simp; omega)] at h
      exact Option.noConfusion h
  · -- nested branch
    split at h
    · left; exact h
    · next pid hmap =>
      split at h
      · left; exact h
      · next pd hpd =>
        split at h
        · left; exact h
        · next cs hcs =>
          dsimp only at h
          have hpidlt : pid < st.store.length := by
            rcases List.getElem?_eq_some_iff.mp hpd with ⟨hlt, _⟩
            exact hlt
          rcases Nat.lt_trichotomy i st.store.length with hi | hi | hi
          · rw [List.getElem?_append_left (by rw [List.length_set]; exact hi)] at h
            by_cases hip : pid = i
            · subst hip
              rw [List.getElem?_set_self hpidlt] at h
              right; right
              exact ⟨pd, cs, hpd, hcs, ((Option.some.injEq _ _).mp h.symm)⟩
            · rw [List.getElem?_set_ne hip] at h
              left; exact h
          · right; left
            subst hi
            rw [List.getElem?_append_right (by simp [List.length_set])] at h
            simp only [List.length_set, Nat.sub_self, List.getElem?_cons_zero,
              Option.some.injEq] at h
            exact ⟨h.symm, Or.inr ⟨pid, hmap⟩⟩
          · exfalso
            rw [List.getElem?_append_right (by rw [List.length_set]; omega)] at h
            rw [List.getElem?_eq_none (by simp [List.length_set]; omega)] at h
            exact Option.noConfusion h

/-- Membership in the forest obtained by dereferencing a list of indices. -/
theorem mem_forestNodes_filterMap {store : List NodeData} {f : Nat}
    {ids : List Nat} {m : FileTreeNode}
    (h : m ∈ forestNodes (ids.filterMap (resolveNode store f))) :
    ∃ c ∈ ids, ∃ n₂, resolveNode store f c = some n₂ ∧ m ∈ nodeNodes n₂ := by
  induction ids with
  | nil => simp [forestNodes] at h
  | cons c rest ih =>
    rw [List.filterMap_cons] at h
    cases hr : resolveNode store f c with
    | none =>
      rw [hr] at h
      rcases ih h with ⟨c₂, hc₂, n₂, hn₂, hm⟩
      exact ⟨c₂, List.mem_cons_of_mem c hc₂, n₂, hn₂, hm⟩
    | some n₂ =>
      rw [hr] at h
      rw [show forestNodes (n₂ :: rest.filterMap (resolveNode store f)) =
        nodeNodes n₂ ++ forestNodes (rest.filterMap (resolveNode store f)) from rfl] at h
      rcases List.mem_append.mp h with hm | hm
      · exact ⟨c, List.mem_cons_self c rest, n₂, hr, hm⟩
      · rcases ih hm with ⟨c₂, hc₂, n₃, hn₃, hm₂⟩
        exact ⟨c₂, List.mem_cons_of_mem c hc₂, n₃, hn₃, hm₂⟩

/-- Every node of a dereferenced subtree mirrors a node of the store: same
name, type and path, and its children field is present exactly when the store
node's is. -/
theorem resolveNode_mem_spec (store : List NodeData) :
    ∀ fuel id n, resolveNode store fuel id = some n →
      ∀ m ∈ nodeNodes n, ∃ (i : Nat) (d : NodeData), store[i]? = some d ∧
        m.name = d.name ∧ m.type = d.type ∧ m.path = d.path ∧
        (m.children = none ↔ d.children = none) := by
  intro fuel
  induction fuel with
  | zero =>
    intro id n h
    simp [resolveNode] at h
  | succ f ih =>
    intro id n h
    rw [show resolveNode store (f + 1) id =
      (match store[id]? with
       | none => none
       | some d =>
         some (.mk d.name d.type d.path
           (match d.children with
            | none => none
            | some cids => some (cids.filterMap (resolveNode store f))))) from rfl] at h
    cases hd : store[id]? with
    | none => rw [hd] at h; exact absurd h (by simp)
    | some d =>
      rw [hd] at h
      have hn := (Option.some.injEq _ _).mp h
      subst hn
      intro m hm
      cases hc : d.children with
      | none =>
        rw [hc] at hm
        rw [show nodeNodes (.mk d.name d.type d.path none) =
          [.mk d.name d.type d.path none] from rfl] at hm
        rcases List.mem_cons.mp hm with rfl | hm₂
        · exact ⟨id, d, hd, rfl, rfl, rfl, by simp [FileTreeNode.children, hc]⟩
        · simp at hm₂
      | some cids =>
        rw [hc] at hm
        rw [show nodeNodes (.mk d.name d.type d.path
            (some (cids.filterMap (resolveNode store f)))) =
          .mk d.name d.type d.path (some (cids.filterMap (resolveNode store f))) ::
            forestNodes (cids.filterMap (resolveNode store f)) from rfl] at hm
        rcases List.mem_cons.mp hm with rfl | hm₂
        · exact ⟨id, d, hd, rfl, rfl, rfl, by simp [FileTreeNode.children, hc]⟩
        · rcases mem_forestNodes_filterMap hm₂ with ⟨c, _, n₂, hn₂, hm₃⟩
          exact ih c n₂ hn₂ m hm₃

/-! ## Claim C4 — childless directories -/

/-- Invariant: a store node is a directory exactly when its children field is
present.  Directories are created with `children: []`; files with
`children: undefined`; attaching a child keeps the field present. -/
theorem buildState_store_typed (l : List TreeEntry) :
    ∀ (i : Nat) (d : NodeData), (buildState l).store[i]? = some d →
      (d.type = NodeType.directory ↔ d.children ≠ none) := by
  have h := buildState_fold_inv l
    (fun st _ _ => ∀ (i : Nat) (d : NodeData), st.store[i]? = some d →
      (d.type = .directory ↔ d.children ≠ none))
    (by intro i d h; simp at h)
    ?_
  · exact h
  · intro st done e rest _ hP i d hd
    rcases processItem_store_cases st e i d hd with hold | ⟨hnew, _⟩ | ⟨pd, cs, hpd, hcs, hupd⟩
    · exact hP i d hold
    · subst hnew
      cases hk : e.kind <;>
        simp [entryNode, nodeTypeOf, hk]
    · subst hupd
      have hpdi := hP i pd hpd
      constructor
      · intro _; simp
      · intro _
        exact hpdi.mpr (by simp [hcs])

/-- The input of claim C4's scenario: one directory entry, nothing inside. -/
def c4Input : List TreeEntry := [⟨strL "src", .tree⟩]

/-- C4, counterexample: a directory to which nothing attaches comes back with
a present, empty children sequence (`children: []`), not with the children
field absent as the claim states. -/
theorem c4_counterexample :
    (buildFileTree c4Input).map (fun n => (n.type, n.children.map List.length)) =
      [(NodeType.directory, some 0)] ∧ some 0 ≠ (none : Option Nat) := by
  exact ⟨by decide, by decide⟩

/-- C4 (amended): a directory entry to which no child entries attach is
returned as a directory node whose children field is present and empty
(`children = some []`) — in every reconstructed forest the children field is
present exactly on directory nodes, files have it absent, and on the
childless-directory input the directory comes back with `some []`. -/
theorem c4_childless_directory_children_empty :
    (∀ l : List TreeEntry, ∀ m ∈ forestNodes (buildFileTree l),
      (m.type = .directory ↔ m.children ≠ none)) ∧
    (buildFileTree c4Input).map (fun n => (n.name, n.type, n.children)) =
      [(strL "src", NodeType.directory, some ([] : List FileTreeNode))] := by
  constructor
  · intro l m hm
    rcases mem_forestNodes_filterMap hm with ⟨c, _, n₂, hn₂, hmem⟩
    rcases resolveNode_mem_spec (buildState l).store _ c n₂ hn₂ m hmem with
      ⟨i, d, hd, _, htype, _, hchild⟩
    have := buildState_store_typed l i d hd
    rw [htype]
    constructor
    · intro hdir
      intro hnone
      exact (this.mp hdir) (hchild.mp hnone)
    · intro hne
      exact this.mpr (fun hdn => hne (hchild.mpr hdn))
  · rfl

/-- Witness for the amended C4 theorem at the concrete childless directory. -/
theorem c4_childless_directory_children_empty_witness :
    ((FileTreeNode.mk (strL "src") .directory (strL "src") (some [])).type
        = .directory ↔
      (FileTreeNode.mk (strL "src") .directory (strL "src") (some [])).children
        ≠ none) :=
  c4_childless_directory_children_empty.1 c4Input _
    (by rw [show forestNodes (buildFileTree c4Input) =
          [FileTreeNode.mk (strL "src") .directory (strL "src") (some [])] from rfl]
        exact List.mem_singleton.mpr rfl)

/-! ## Claim C2 — orphan entries are dropped -/

/-- The loop step either leaves `directoryMap` alone, or registers the
processed `tree` entry's path under the freshly allocated index. -/
theorem processItem_dirMap_shape (st : BuildState) (e : TreeEntry) :
    (processItem st e).dirMap = st.dirMap ∨
    (e.kind = .tree ∧
      (processItem st e).dirMap = (e.path, st.store.length) :: st.dirMap) := by
  simp only [processItem]
  split
  · dsimp only
    by_cases hk : e.kind = .tree
    · right; exact ⟨hk, by rw [if_pos hk]⟩
    · left; rw [if_neg hk]
  · split
    · left; rfl
    · split
      · left; rfl
      · split
        · left; rfl
        · dsimp only
          by_cases hk : e.kind = .tree
          · right; exact ⟨hk, by rw [if_pos hk]⟩
          · left; rw [if_neg hk]

/-- Joint invariant for C2: every `directoryMap` key is the path of a
`tree`-kind entry already processed, and every store node with a
multi-segment path has a `tree`-kind entry for its parent path among the
processed entries. -/
theorem buildState_orphan_inv (l : List TreeEntry) :
    (∀ (q : List Char) (i : Nat), mapLookup (buildState l).dirMap q = some i →
      ∃ e₂ ∈ sortEntries l, e₂.kind = .tree ∧ e₂.path = q) ∧
    (∀ (i : Nat) (d : NodeData), (buildState l).store[i]? = some d →
      1 < (splitSeg d.path).length →
      ∃ e₂ ∈ sortEntries l, e₂.kind = .tree ∧ e₂.path = parentPathOf d.path) := by
  have h := buildState_fold_inv l
    (fun st done _ =>
      (∀ (q : List Char) (i : Nat), mapLookup st.dirMap q = some i →
        ∃ e₂ ∈ done, e₂.kind = .tree ∧ e₂.path = q) ∧
      (∀ (i : Nat) (d : NodeData), st.store[i]? = some d →
        1 < (splitSeg d.path).length →
        ∃ e₂ ∈ done, e₂.kind = .tree ∧ e₂.path = parentPathOf d.path))
    ?_ ?_
  · exact h
  · constructor
    · intro q i h2; simp [mapLookup] at h2
    · intro i d h2; simp at h2
  · intro st done e rest _ hP
    constructor
    · intro q i hq
      rcases processItem_dirMap_shape st e with hsh | ⟨hk, hsh⟩
      · rw [hsh] at hq
        rcases hP.1 q i hq with ⟨e₂, he₂, hkind, hpath⟩
        exact ⟨e₂, List.mem_append_left _ he₂, hkind, hpath⟩
      · rw [hsh] at hq
        rw [show mapLookup ((e.path, st.store.length) :: st.dirMap) q =
          (if e.path = q then some st.store.length else mapLookup st.dirMap q)
          from rfl] at hq
        by_cases hpq : e.path = q
        · exact ⟨e, List.mem_append_right _ (List.mem_singleton.mpr rfl), hk, hpq⟩
        · rw [if_neg hpq] at hq
          rcases hP.1 q i hq with ⟨e₂, he₂, hkind, hpath⟩
          exact ⟨e₂, List.mem_append_left _ he₂, hkind, hpath⟩
    · intro i d hd hdeep
      rcases processItem_store_cases st e i d hd with
        hold | ⟨hnew, hbr⟩ | ⟨pd, cs, hpd, hcs, hupd⟩
      · rcases hP.2 i d hold hdeep with ⟨e₂, he₂, hkind, hpath⟩
        exact ⟨e₂, List.mem_append_left _ he₂, hkind, hpath⟩
      · subst hnew
        rcases hbr with hlen | ⟨pid, hmap⟩
        · exfalso
          simp only [entryNode] at hdeep
          omega
        · rcases hP.1 (parentPathOf e.path) pid hmap with ⟨e₂, he₂, hkind, hpath⟩
          exact ⟨e₂, List.mem_append_left _ he₂, hkind, hpath⟩
      · subst hupd
        rcases hP.2 i pd hpd (by simpa using hdeep) with ⟨e₂, he₂, hkind, hpath⟩
        exact ⟨e₂, List.mem_append_left _ he₂, hkind, by simpa using hpath⟩

/-- C2: an entry whose path has more than one segment and whose immediate
parent path is not the path of any `tree`-kind entry of the list is silently
dropped: no node anywhere in the reconstructed forest carries its path, it is
attached nowhere, and the reconstruction is a total function (no failure). -/
theorem c2_orphan_dropped (l : List TreeEntry) (e : TreeEntry) (he : e ∈ l)
    (hdeep : 1 < (splitSeg e.path).length)
    (hnoparent : ∀ e₂ ∈ l, e₂.kind = .tree → e₂.path ≠ parentPathOf e.path) :
    ∀ m ∈ forestNodes (buildFileTree l), m.path ≠ e.path := by
  intro m hm hpath
  rcases mem_forestNodes_filterMap hm with ⟨c, _, n₂, hn₂, hmem⟩
  rcases resolveNode_mem_spec (buildState l).store _ c n₂ hn₂ m hmem with
    ⟨i, d, hd, _, _, hdp, _⟩
  have hdpath : d.path = e.path := by rw [← hdp, hpath]
  rcases (buildState_orphan_inv l).2 i d hd (by rw [hdpath]; exact hdeep) with
    ⟨e₂, he₂, hkind, hppath⟩
  have he₂l : e₂ ∈ l := (sortEntries_perm l).mem_iff.mp he₂
  exact hnoparent e₂ he₂l hkind (by rw [hppath, hdpath])

/-- Witness for C2 at a concrete list: `a/b` has two segments and no parent
entry, so it is dropped; the surviving root node `x` does not carry its
path. -/
theorem c2_orphan_dropped_witness :
    (FileTreeNode.mk (strL "x") .file (strL "x") none).path ≠ strL "a/b" :=
  c2_orphan_dropped [⟨strL "x", .blob⟩, ⟨strL "a/b", .blob⟩]
    ⟨strL "a/b", .blob⟩ (by decide) (by decide) (by decide) _
    (by rw [show forestNodes (buildFileTree
          [⟨strL "x", .blob⟩, ⟨strL "a/b", .blob⟩]) =
        [FileTreeNode.mk (strL "x") .file (strL "x") none] from rfl]
        exact List.mem_singleton.mpr rfl)

/-! ## Claim C3 — the round trip

Counting the nodes of a reconstructed forest that carry a given `path`. -/

mutual

/-- How many nodes of the subtree rooted at a node carry path `p`. -/
def countPathNode (p : List Char) : FileTreeNode → Nat
  | .mk _ _ path c =>
    (if path = p then 1 else 0) +
      (match c with | none => 0 | some cs => countPathForest p cs)

/-- How many nodes of a forest carry path `p`. -/
def countPathForest (p : List Char) : List FileTreeNode → Nat
  | [] => 0
  | n :: rest => countPathNode p n + countPathForest p rest

end

/-- Every ancestor directory path of every entry (every proper prefix of its
segment list, joined back with `/`) is the path of an explicit `tree`-kind
entry of the list. -/
def AncestorsPresent (l : List TreeEntry) : Prop :=
  ∀ e ∈ l, ∀ k, k < (splitSeg e.path).length → 1 ≤ k →
    ∃ e₂ ∈ l, e₂.kind = .tree ∧ e₂.path = joinSeg ((splitSeg e.path).take k)

instance decAncestorsPresent (l : List TreeEntry) : Decidable (AncestorsPresent l) :=
  inferInstanceAs (Decidable (∀ e ∈ l, ∀ k, k < (splitSeg e.path).length → 1 ≤ k →
    ∃ e₂ ∈ l, e₂.kind = .tree ∧ e₂.path = joinSeg ((splitSeg e.path).take k)))

/-- A duplicated flat list: the same blob path listed twice. -/
def c3DupInput : List TreeEntry := [⟨strL "a", .blob⟩, ⟨strL "a", .blob⟩]

/-- C3, counterexample: the claim quantifies over every flat list whose
ancestor directories are all explicitly listed, but a list that repeats a
blob path satisfies that hypothesis and produces two nodes carrying the path,
not exactly one. -/
theorem c3_counterexample :
    AncestorsPresent c3DupInput ∧
    (⟨strL "a", .blob⟩ : TreeEntry) ∈ c3DupInput ∧
    (⟨strL "a", .blob⟩ : TreeEntry).kind = .blob ∧
    countPathForest (strL "a") (buildFileTree c3DupInput) = 2 ∧ (2 : Nat) ≠ 1 := by
  refine ⟨by decide, by decide, rfl, by decide, by decide⟩

/-- The children indices of the store node at `i` (empty when out of range or
when the children field is absent). -/
def childrenAt (store : List NodeData) (i : Nat) : List Nat :=
  match store[i]? with
  | none => []
  | some d => d.children.getD []

/-- The path of the store node at `i` (empty when out of range). -/
def pathAt (store : List NodeData) (i : Nat) : List Char :=
  match store[i]? with
  | none => []
  | some d => d.path

/-- The store indices visited by `resolveNode` from `id` with budget `fuel`. -/
def reachIds (store : List NodeData) : Nat → Nat → List Nat
  | 0, _ => []
  | fuel + 1, id =>
    match store[id]? with
    | none => []
    | some d => id :: (d.children.getD []).flatMap (reachIds store fuel)

/-- Unfolding `resolveNode` at successor budget on a valid index. -/
theorem resolveNode_succ (store : List NodeData) (f id : Nat) (d : NodeData)
    (hd : store[id]? = some d) :
    resolveNode store (f + 1) id =
      some (.mk d.name d.type d.path
        (match d.children with
         | none => none
         | some cids => some (cids.filterMap (resolveNode store f)))) := by
  conv_lhs => rw [resolveNode]
  rw [hd]

/-- `resolveNode` at successor budget on an invalid index. -/
theorem resolveNode_succ_none (store : List NodeData) (f id : Nat)
    (hd : store[id]? = none) : resolveNode store (f + 1) id = none := by
  conv_lhs => rw [resolveNode]
  rw [hd]

/-- Unfolding `reachIds` at successor budget on a valid index. -/
theorem reachIds_succ (store : List NodeData) (f id : Nat) (d : NodeData)
    (hd : store[id]? = some d) :
    reachIds store (f + 1) id =
      id :: (d.children.getD []).flatMap (reachIds store f) := by
  conv_lhs => rw [reachIds]
  rw [hd]

/-- `reachIds` at successor budget on an invalid index. -/
theorem reachIds_succ_none (store : List NodeData) (f id : Nat)
    (hd : store[id]? = none) : reachIds store (f + 1) id = [] := by
  conv_lhs => rw [reachIds]
  rw [hd]

/-- The path-count of a dereferenced subtree is the count of `p` among the
paths of the visited store indices. -/
theorem resolveNode_count (store : List NodeData) (p : List Char) :
    ∀ fuel id,
      (match resolveNode store fuel id with
       | none => 0
       | some n => countPathNode p n) =
      List.count p ((reachIds store fuel id).map (pathAt store)) := by
  intro fuel
  induction fuel with
  | zero => intro id; simp [resolveNode, reachIds]
  | succ f ih =>
    intro id
    cases hd : store[id]? with
    | none => simp [resolveNode_succ_none store f id hd, reachIds_succ_none store f id hd]
    | some d =>
      have hsub : ∀ cids : List Nat,
          countPathForest p (cids.filterMap (resolveNode store f)) =
          List.count p ((cids.flatMap (reachIds store f)).map (pathAt store)) := by
        intro cids
        induction cids with
        | nil => simp [countPathForest]
        | cons c rest ih₂ =>
          rw [List.filterMap_cons]
          have hc := ih c
          cases hr : resolveNode store f c with
          | none =>
            rw [hr] at hc
            simp only [List.flatMap_cons, List.map_append, List.count_append]
            rw [← hc, ih₂]
            simp
          | some n =>
            rw [hr] at hc
            simp only [List.flatMap_cons, List.map_append, List.count_append]
            rw [show countPathForest p (n :: rest.filterMap (resolveNode store f)) =
              countPathNode p n + countPathForest p (rest.filterMap (resolveNode store f))
              from rfl]
            rw [← hc, ih₂]
      rw [resolveNode_succ store f id d hd, reachIds_succ store f id d hd]
      cases hch : d.children with
      | none =>
        simp only [Option.getD, List.flatMap_nil, List.map_cons, List.map_nil]
        rw [show countPathNode p (FileTreeNode.mk d.name d.type d.path none) =
          (if d.path = p then 1 else 0) + 0 from rfl]
        simp only [pathAt, hd, List.count_cons, List.count_nil]
        by_cases hp : d.path = p <;> simp [hp]
      | some cids =>
        rw [show (match some (FileTreeNode.mk d.name d.type d.path
            (some (cids.filterMap (resolveNode store f)))) with
          | none => 0
          | some n => countPathNode p n) =
          (if d.path = p then 1 else 0) +
            countPathForest p (cids.filterMap (resolveNode store f)) from rfl]
        rw [hsub cids]
        simp only [Option.getD, List.map_cons, List.count_cons, pathAt, hd]
        by_cases hp : d.path = p <;> simp [hp, Nat.add_comm]

/-- Forward-reference discipline of the builder: children indices point
strictly forward and stay in range. -/
def StoreFwd (store : List NodeData) : Prop :=
  ∀ (i : Nat) (d : NodeData), store[i]? = some d →
    ∀ c ∈ d.children.getD [], i < c ∧ c < store.length

theorem flatMap_congr {α β : Type} {l : List α} {f g : α → List β}
    (h : ∀ x ∈ l, f x = g x) : l.flatMap f = l.flatMap g := by
  induction l with
  | nil => rfl
  | cons a rest ih =>
    simp only [List.flatMap_cons]
    rw [h a (List.mem_cons_self a rest),
      ih (fun x hx => h x (List.mem_cons_of_mem a hx))]

theorem childrenAt_eq {store : List NodeData} {i : Nat} {d : NodeData}
    (hd : store[i]? = some d) : childrenAt store i = d.children.getD [] := by
  simp [childrenAt, hd]

/-- With enough budget the visited set does not depend on the budget. -/
theorem reachIds_fuel_irrelevant {store : List NodeData} (hfwd : StoreFwd store) :
    ∀ k id fuel₁ fuel₂, store.length - id ≤ k →
      store.length - id ≤ fuel₁ → store.length - id ≤ fuel₂ →
      reachIds store fuel₁ id = reachIds store fuel₂ id := by
  intro k
  induction k with
  | zero =>
    intro id fuel₁ fuel₂ hk h1 h2
    have hid : store.length ≤ id := by omega
    have hd : store[id]? = none := List.getElem?_eq_none hid
    cases fuel₁ with
    | zero =>
      cases fuel₂ with
      | zero => rfl
      | succ f₂ => rw [reachIds_succ_none store f₂ id hd]; rfl
    | succ f₁ =>
      rw [reachIds_succ_none store f₁ id hd]
      cases fuel₂ with
      | zero => rfl
      | succ f₂ => rw [reachIds_succ_none store f₂ id hd]
  | succ k ih =>
    intro id fuel₁ fuel₂ hk h1 h2
    by_cases hid : id < store.length
    · have hd : store[id]? = some store[id] := List.getElem?_eq_getElem hid
      cases fuel₁ with
      | zero => omega
      | succ f₁ =>
        cases fuel₂ with
        | zero => omega
        | succ f₂ =>
          rw [reachIds_succ store f₁ id store[id] hd,
            reachIds_succ store f₂ id store[id] hd]
          congr 1
          apply flatMap_congr
          intro c hc
          have hcb := hfwd id store[id] hd c hc
          exact ih c f₁ f₂ (by omega) (by omega) (by omega)
    · have hd : store[id]? = none := List.getElem?_eq_none (by omega)
      cases fuel₁ with
      | zero =>
        cases fuel₂ with
        | zero => rfl
        | succ f₂ => rw [reachIds_succ_none store f₂ id hd]; rfl
      | succ f₁ =>
        rw [reachIds_succ_none store f₁ id hd]
        cases fuel₂ with
        | zero => rfl
        | succ f₂ => rw [reachIds_succ_none store f₂ id hd]

/-- Canonical unfolding of the reach at the standard budget. -/
theorem reachIds_len_unfold {store : List NodeData} (hfwd : StoreFwd store)
    (id : Nat) (d : NodeData) (hd : store[id]? = some d) :
    reachIds store store.length id =
      id :: (d.children.getD []).flatMap (reachIds store store.length) := by
  have hlt : id < store.length := (List.getElem?_eq_some_iff.mp hd).1
  have h1 : store.length = (store.length - 1) + 1 := by omega
  rw [h1, reachIds_succ store (store.length - 1) id d hd]
  congr 1
  apply flatMap_congr
  intro c hc
  have hcb := hfwd id d hd c hc
  exact reachIds_fuel_irrelevant hfwd store.length c (store.length - 1)
    ((store.length - 1) + 1) (by omega) (by omega) (by omega)

/-- One unfolding step over a whole frontier, as a permutation. -/
theorem flatMap_reach_step {store : List NodeData} (hfwd : StoreFwd store)
    (ids : List Nat) (hval : ∀ i ∈ ids, i < store.length) :
    (ids.flatMap (reachIds store store.length)).Perm
      (ids ++ (ids.flatMap (childrenAt store)).flatMap
        (reachIds store store.length)) := by
  induction ids with
  | nil => simp
  | cons i rest ih =>
    have hi : i < store.length := hval i (List.mem_cons_self i rest)
    have hd : store[i]? = some store[i] := List.getElem?_eq_getElem hi
    have hch : childrenAt store i = (store[i]).children.getD [] := childrenAt_eq hd
    apply List.perm_iff_count.mpr
    intro a
    have hcnt := (ih (fun x hx => hval x (List.mem_cons_of_mem i hx))).count_eq a
    rw [List.flatMap_cons, reachIds_len_unfold hfwd i store[i] hd]
    simp only [List.flatMap_cons, List.flatMap_append, List.count_cons,
      List.count_append, List.cons_append, hch] at hcnt ⊢
    omega

/-- Layered expansion of the frontier: the ids, then their children, then the
children's children, for `k` layers. -/
def frontierFlat (store : List NodeData) : Nat → List Nat → List Nat
  | 0, _ => []
  | k + 1, ids => ids ++ frontierFlat store k (ids.flatMap (childrenAt store))

/-- Members of a child frontier come from a member's children. -/
theorem mem_flatMap_childrenAt {store : List NodeData} {ids : List Nat} {c : Nat}
    (h : c ∈ ids.flatMap (childrenAt store)) :
    ∃ i ∈ ids, ∃ d, store[i]? = some d ∧ c ∈ d.children.getD [] := by
  rcases List.mem_flatMap.mp h with ⟨i, hi, hc⟩
  cases hd : store[i]? with
  | none => rw [show childrenAt store i = [] by simp [childrenAt, hd]] at hc; simp at hc
  | some d =>
    rw [childrenAt_eq hd] at hc
    exact ⟨i, hi, d, hd, hc⟩

/-- The whole reach is the layered frontier, once the budget covers the
deepest layer. -/
theorem flatMap_reach_frontier {store : List NodeData} (hfwd : StoreFwd store) :
    ∀ (k : Nat) (ids : List Nat),
      (∀ i ∈ ids, i < store.length ∧ store.length - i ≤ k) →
      (ids.flatMap (reachIds store store.length)).Perm (frontierFlat store k ids) := by
  intro k
  induction k with
  | zero =>
    intro ids hb
    cases ids with
    | nil => simp [frontierFlat]
    | cons i rest =>
      have := hb i (List.mem_cons_self i rest)
      omega
  | succ k ih =>
    intro ids hb
    have hstep := flatMap_reach_step hfwd ids (fun i hi => (hb i hi).1)
    have hrec := ih (ids.flatMap (childrenAt store)) ?_
    · exact hstep.trans ((List.Perm.append_left ids hrec))
    · intro c hc
      rcases mem_flatMap_childrenAt hc with ⟨i, hi, d, hd, hcd⟩
      have hfc := hfwd i d hd c hcd
      have hib := hb i hi
      exact ⟨hfc.2, by omega⟩

/-- Frontier members are valid store indices. -/
theorem frontierFlat_valid {store : List NodeData} (hfwd : StoreFwd store) :
    ∀ (k : Nat) (ids : List Nat), (∀ i ∈ ids, i < store.length) →
      ∀ j ∈ frontierFlat store k ids, j < store.length := by
  intro k
  induction k with
  | zero => intro ids _ j hj; simp [frontierFlat] at hj
  | succ k ih =>
    intro ids hval j hj
    rcases List.mem_append.mp hj with hj | hj
    · exact hval j hj
    · refine ih (ids.flatMap (childrenAt store)) ?_ j hj
      intro c hc
      rcases mem_flatMap_childrenAt hc with ⟨i, _, d, hd, hcd⟩
      exact (hfwd i d hd c hcd).2

/-- Count recurrence of the exhausted frontier: each member's children are in
the frontier exactly below it. -/
theorem frontierFlat_count {store : List NodeData} (hfwd : StoreFwd store) :
    ∀ (k : Nat) (ids : List Nat),
      (∀ i ∈ ids, i < store.length ∧ store.length - i ≤ k) →
      ∀ (j : Nat),
      List.count j (frontierFlat store k ids) =
        List.count j ids +
          ((frontierFlat store k ids).map
            (fun i => List.count j (childrenAt store i))).sum := by
  intro k
  induction k with
  | zero =>
    intro ids hb j
    cases ids with
    | nil => simp [frontierFlat]
    | cons i rest =>
      have := hb i (List.mem_cons_self i rest)
      omega
  | succ k ih =>
    intro ids hb j
    have hbnext : ∀ i ∈ ids.flatMap (childrenAt store),
        i < store.length ∧ store.length - i ≤ k := by
      intro c hc
      rcases mem_flatMap_childrenAt hc with ⟨i, hi, d, hd, hcd⟩
      have hfc := hfwd i d hd c hcd
      have hib := hb i hi
      exact ⟨hfc.2, by omega⟩
    have hrec := ih (ids.flatMap (childrenAt store)) hbnext j
    rw [show frontierFlat store (k + 1) ids =
      ids ++ frontierFlat store k (ids.flatMap (childrenAt store)) from rfl]
    rw [List.count_append, hrec, List.map_append, List.sum_append]
    have hflat : List.count j (ids.flatMap (childrenAt store)) =
        (ids.map (fun i => List.count j (childrenAt store i))).sum := by
      rw [List.count_flatMap]
      congr 1
    omega

/-- A sum of a function over a multiset only depends on the counts at the
function's support. -/
theorem map_sum_eq_of_count_eq {g : Nat → Nat} {L M : List Nat}
    (h : ∀ i, g i ≠ 0 → List.count i L = List.count i M) :
    (L.map g).sum = (M.map g).sum := by
  have hz : ∀ N : List Nat, (N.map g).sum = ((N.filter (fun i => g i != 0)).map g).sum := by
    intro N
    induction N with
    | nil => rfl
    | cons a rest ih =>
      by_cases hga : g a = 0
      · simp [List.filter_cons, hga, ih]
      · simp [List.filter_cons, hga, ih]
  rw [hz L, hz M]
  have hperm : (L.filter (fun i => g i != 0)).Perm (M.filter (fun i => g i != 0)) := by
    apply List.perm_iff_count.mpr
    intro a
    by_cases hga : g a = 0
    · have h1 : a ∉ L.filter (fun i => g i != 0) := by
        intro hmem
        have := List.of_mem_filter hmem
        simp [hga] at this
      have h2 : a ∉ M.filter (fun i => g i != 0) := by
        intro hmem
        have := List.of_mem_filter hmem
        simp [hga] at this
      rw [List.count_eq_zero_of_not_mem h1, List.count_eq_zero_of_not_mem h2]
    · rw [List.count_filter (by simp [hga]), List.count_filter (by simp [hga])]
      exact h a hga
  exact (hperm.map g).sum_eq

/-- Walking the whole index range through `childrenAt` is walking the store. -/
theorem range_flatMap_childrenAt (store : List NodeData) :
    (List.range store.length).flatMap (childrenAt store) =
      store.flatMap (fun d => d.children.getD []) := by
  induction store with
  | nil => simp
  | cons d rest ih =>
    rw [show (d :: rest).length = rest.length + 1 from rfl, List.range_succ_eq_map]
    rw [List.flatMap_cons, List.flatMap_map]
    rw [show childrenAt (d :: rest) 0 = d.children.getD [] from by simp [childrenAt, List.getElem?_cons_zero]]
    rw [show ((List.range rest.length).flatMap fun a => childrenAt (d :: rest) a.succ) =
      (List.range rest.length).flatMap (childrenAt rest) from flatMap_congr (fun x _ => by
        simp [childrenAt, List.getElem?_cons_succ])]
    rw [ih, List.flatMap_cons]

/-- The unique-reference discipline: taken together, the root array and all
children arrays reference every allocated index exactly once. -/
def StoreRefsOnce (store : List NodeData) (root : List Nat) : Prop :=
  (root ++ store.flatMap (fun d => d.children.getD [])).Perm
    (List.range store.length)

/-- Dereferencing the root array visits every store index exactly once. -/
theorem reach_partition {store : List NodeData} {root : List Nat}
    (hfwd : StoreFwd store) (href : StoreRefsOnce store root) :
    (root.flatMap (reachIds store store.length)).Perm
      (List.range store.length) := by
  have hrootval : ∀ i ∈ root, i < store.length := by
    intro i hi
    exact List.mem_range.mp (href.mem_iff.mp (List.mem_append_left _ hi))
  have hbound : ∀ i ∈ root, i < store.length ∧ store.length - i ≤ store.length :=
    fun i hi => ⟨hrootval i hi, by omega⟩
  have hFT := flatMap_reach_frontier hfwd store.length root hbound
  have hLval : ∀ j ∈ frontierFlat store store.length root, j < store.length :=
    frontierFlat_valid hfwd store.length root hrootval
  have hkey : ∀ j, j < store.length →
      List.count j (frontierFlat store store.length root) = 1 := by
    intro j
    induction j using Nat.strong_induction_on with
    | _ j IH =>
      intro hj
      have hcc := frontierFlat_count hfwd store.length root hbound j
      have hsum : ((frontierFlat store store.length root).map
            (fun i => List.count j (childrenAt store i))).sum =
          ((List.range store.length).map
            (fun i => List.count j (childrenAt store i))).sum := by
        apply map_sum_eq_of_count_eq
        intro i hgi
        have hjmem : j ∈ childrenAt store i := by
          by_contra hnm
          exact hgi (List.count_eq_zero_of_not_mem hnm)
        have hd : ∃ d, store[i]? = some d ∧ j ∈ d.children.getD [] := by
          cases hdi : store[i]? with
          | none =>
            rw [show childrenAt store i = [] by simp [childrenAt, hdi]] at hjmem
            simp at hjmem
          | some d =>
            rw [childrenAt_eq hdi] at hjmem
            exact ⟨d, rfl, hjmem⟩
        rcases hd with ⟨d, hdi, hjd⟩
        have hij := hfwd i d hdi j hjd
        have hil : i < store.length := (List.getElem?_eq_some_iff.mp hdi).1
        rw [IH i hij.1 hil,
          List.count_eq_one_of_mem (List.nodup_range _) (List.mem_range.mpr hil)]
      have hrf : ((List.range store.length).map
            (fun i => List.count j (childrenAt store i))).sum =
          List.count j (store.flatMap (fun d => d.children.getD [])) := by
        rw [← range_flatMap_childrenAt store, List.count_flatMap]
        congr 1
      have hrange := href.count_eq j
      rw [List.count_append] at hrange
      rw [List.count_eq_one_of_mem (List.nodup_range _) (List.mem_range.mpr hj)]
        at hrange
      rw [hcc, hsum, hrf]
      omega
  apply List.perm_iff_count.mpr
  intro a
  rw [hFT.count_eq a]
  by_cases ha : a < store.length
  · rw [hkey a ha,
      List.count_eq_one_of_mem (List.nodup_range _) (List.mem_range.mpr ha)]
  · rw [List.count_eq_zero_of_not_mem (fun hmem => ha (hLval a hmem)),
      List.count_eq_zero_of_not_mem (fun hmem => ha (List.mem_range.mp hmem))]

theorem perm_count_eq {α : Type} [BEq α] {l₁ l₂ : List α} (h : l₁.Perm l₂)
    (a : α) : List.count a l₁ = List.count a l₂ := by
  induction h with
  | nil => rfl
  | cons x h ih => simp [List.count_cons, ih]
  | swap x y l => simp [List.count_cons]; omega
  | trans h1 h2 ih1 ih2 => omega

theorem countPathForest_filterMap (store : List NodeData) (p : List Char)
    (fuel : Nat) (ids : List Nat) :
    countPathForest p (ids.filterMap (resolveNode store fuel)) =
      List.count p ((ids.flatMap (reachIds store fuel)).map (pathAt store)) := by
  induction ids with
  | nil => simp [countPathForest]
  | cons c rest ih =>
    rw [List.filterMap_cons]
    have hc := resolveNode_count store p fuel c
    cases hr : resolveNode store fuel c with
    | none =>
      rw [hr] at hc
      simp only [List.flatMap_cons, List.map_append, List.count_append]
      rw [← hc, ih]
      simp
    | some n =>
      rw [hr] at hc
      simp only [List.flatMap_cons, List.map_append, List.count_append]
      rw [show countPathForest p (n :: rest.filterMap (resolveNode store fuel)) =
        countPathNode p n +
          countPathForest p (rest.filterMap (resolveNode store fuel)) from rfl]
      rw [← hc, ih]

theorem range_map_pathAt (store : List NodeData) :
    (List.range store.length).map (pathAt store) = store.map NodeData.path := by
  induction store with
  | nil => simp
  | cons d rest ih =>
    rw [show (d :: rest).length = rest.length + 1 from rfl, List.range_succ_eq_map]
    rw [List.map_cons, List.map_map]
    rw [show pathAt (d :: rest) 0 = d.path from by simp [pathAt]]
    rw [show (List.range rest.length).map (pathAt (d :: rest) ∘ Nat.succ) =
      (List.range rest.length).map (pathAt rest) from List.map_congr_left
        (fun x _ => by simp [pathAt, Function.comp, List.getElem?_cons_succ])]
    rw [ih]
    rfl

/-- Under the two reference disciplines, the path-count of the dereferenced
forest is the path-count of the store. -/
theorem count_transfer {store : List NodeData} {root : List Nat}
    (hfwd : StoreFwd store) (href : StoreRefsOnce store root) (p : List Char) :
    countPathForest p (root.filterMap (resolveNode store store.length)) =
      List.count p (store.map NodeData.path) := by
  rw [countPathForest_filterMap store p store.length root, ← range_map_pathAt]
  exact perm_count_eq ((reach_partition hfwd href).map (pathAt store)) p

/-! ## The builder satisfies the reference disciplines -/

theorem count_flatMap_set {α : Type} [DecidableEq α] (f : NodeData → List α) :
    ∀ (store : List NodeData) (pid : Nat) (pd upd : NodeData),
      store[pid]? = some pd → ∀ a : α,
      List.count a ((store.set pid upd).flatMap f) + List.count a (f pd) =
      List.count a (store.flatMap f) + List.count a (f upd) := by
  intro store
  induction store with
  | nil => intro pid pd upd h; simp at h
  | cons d rest ih =>
    intro pid pd upd h a
    cases pid with
    | zero =>
      rw [List.getElem?_cons_zero] at h
      have hd : d = pd := (Option.some.injEq _ _).mp h
      subst hd
      simp only [List.set, List.flatMap_cons, List.count_append]
      omega
    | succ k =>
      rw [List.getElem?_cons_succ] at h
      have := ih k pd upd h a
      simp only [List.set, List.flatMap_cons, List.count_append]
      omega

theorem processItem_root (st : BuildState) (e : TreeEntry)
    (hlen : (splitSeg e.path).length = 1) :
    processItem st e =
      ⟨st.store ++ [entryNode e], st.root ++ [st.store.length],
       if e.kind = .tree then (e.path, st.store.length) :: st.dirMap
       else st.dirMap⟩ := by
  simp only [processItem, if_pos hlen]

theorem processItem_skip_nomap (st : BuildState) (e : TreeEntry)
    (hlen : ¬ (splitSeg e.path).length = 1)
    (hmap : mapLookup st.dirMap (parentPathOf e.path) = none) :
    processItem st e = st := by
  simp only [processItem, if_neg hlen, hmap]

theorem processItem_skip_nonode (st : BuildState) (e : TreeEntry)
    (hlen : ¬ (splitSeg e.path).length = 1) (pid : Nat)
    (hmap : mapLookup st.dirMap (parentPathOf e.path) = some pid)
    (hpd : st.store[pid]? = none) :
    processItem st e = st := by
  simp only [processItem, if_neg hlen, hmap, hpd]

theorem processItem_skip_nochildren (st : BuildState) (e : TreeEntry)
    (hlen : ¬ (splitSeg e.path).length = 1) (pid : Nat)
    (hmap : mapLookup st.dirMap (parentPathOf e.path) = some pid)
    (pd : NodeData) (hpd : st.store[pid]? = some pd)
    (hcs : pd.children = none) :
    processItem st e = st := by
  simp only [processItem, if_neg hlen, hmap, hpd, hcs]

theorem processItem_attach (st : BuildState) (e : TreeEntry)
    (hlen : ¬ (splitSeg e.path).length = 1) (pid : Nat)
    (hmap : mapLookup st.dirMap (parentPathOf e.path) = some pid)
    (pd : NodeData) (hpd : st.store[pid]? = some pd)
    (cs : List Nat) (hcs : pd.children = some cs) :
    processItem st e =
      ⟨(st.store.set pid
          { pd with children := some (cs ++ [st.store.length]) }) ++ [entryNode e],
       st.root,
       if e.kind = .tree then (e.path, st.store.length) :: st.dirMap
       else st.dirMap⟩ := by
  simp only [processItem, if_neg hlen, hmap, hpd, hcs]

/-- A freshly allocated node has no child references. -/
theorem entryNode_children_getD (e : TreeEntry) :
    (entryNode e).children.getD [] = [] := by
  by_cases hk : e.kind = .tree <;> simp [entryNode, hk]

/-- The builder's final state obeys both reference disciplines. -/
theorem buildState_fwd_refs (l : List TreeEntry) :
    StoreFwd (buildState l).store ∧
    StoreRefsOnce (buildState l).store (buildState l).root := by
  have h := buildState_fold_inv l
    (fun st _ _ => StoreFwd st.store ∧ StoreRefsOnce st.store st.root) ?_ ?_
  · exact h
  · constructor
    · intro i d hd; simp at hd
    · simp [StoreRefsOnce]
  · intro st done e rest _ hP
    rcases hP with ⟨hfwd, href⟩
    by_cases hlen : (splitSeg e.path).length = 1
    · rw [processItem_root st e hlen]
      constructor
      · intro i d hd c hc
        rcases Nat.lt_trichotomy i st.store.length with hi | hi | hi
        · rw [List.getElem?_append_left hi] at hd
          have := hfwd i d hd c hc
          simp only [List.length_append, List.length_cons, List.length_nil]
          omega
        · subst hi
          rw [List.getElem?_concat_length] at hd
          have hde : d = entryNode e := ((Option.some.injEq _ _).mp hd).symm
          subst hde
          rw [entryNode_children_getD] at hc
          simp at hc
        · rw [List.getElem?_append_right (by omega)] at hd
          rw [List.getElem?_eq_none (by simp; omega)] at hd
          exact Option.noConfusion hd
      · apply List.perm_iff_count.mpr
        intro a
        have hcnt := href.count_eq a
        simp only [List.flatMap_append, List.count_append, List.flatMap_cons,
          List.flatMap_nil, entryNode_children_getD, List.length_append,
          List.length_cons, List.length_nil, List.append_nil] at hcnt ⊢
        rw [show st.store.length + 1 = (st.store.length).succ from rfl,
          List.range_succ, List.count_append]
        simp only [List.count_cons, List.count_nil]
        omega
    · cases hmap : mapLookup st.dirMap (parentPathOf e.path) with
      | none => rw [processItem_skip_nomap st e hlen hmap]; exact ⟨hfwd, href⟩
      | some pid =>
        cases hpd : st.store[pid]? with
        | none => rw [processItem_skip_nonode st e hlen pid hmap hpd]; exact ⟨hfwd, href⟩
        | some pd =>
          cases hcs : pd.children with
          | none =>
            rw [processItem_skip_nochildren st e hlen pid hmap pd hpd hcs]
            exact ⟨hfwd, href⟩
          | some cs =>
            rw [processItem_attach st e hlen pid hmap pd hpd cs hcs]
            have hpidlt : pid < st.store.length :=
              (List.getElem?_eq_some_iff.mp hpd).1
            constructor
            · intro i d hd c hc
              simp only [List.length_append, List.length_set, List.length_cons,
                List.length_nil]
              rcases Nat.lt_trichotomy i st.store.length with hi | hi | hi
              · rw [List.getElem?_append_left (by rw [List.length_set]; exact hi)]
                  at hd
                by_cases hip : pid = i
                · subst hip
                  rw [List.getElem?_set_self hpidlt] at hd
                  have hde := ((Option.some.injEq _ _).mp hd).symm
                  subst hde
                  simp only [Option.getD] at hc
                  rcases List.mem_append.mp hc with hc | hc
                  · have := hfwd pid pd hpd c (by rw [hcs]; exact hc)
                    omega
                  · simp only [List.mem_cons, List.not_mem_nil, or_false] at hc
                    subst hc
                    omega
                · rw [List.getElem?_set_ne hip] at hd
                  have := hfwd i d hd c hc
                  omega
              · subst hi
                rw [List.getElem?_append_right (by simp [List.length_set])] at hd
                simp only [List.length_set, Nat.sub_self,
                  List.getElem?_cons_zero] at hd
                have hde := ((Option.some.injEq _ _).mp hd).symm
                subst hde
                rw [entryNode_children_getD] at hc
                simp at hc
              · rw [List.getElem?_append_right (by rw [List.length_set]; omega)]
                  at hd
                rw [List.getElem?_eq_none (by simp [List.length_set]; omega)] at hd
                exact Option.noConfusion hd
            · apply List.perm_iff_count.mpr
              intro a
              have hcnt := href.count_eq a
              have hset := count_flatMap_set (fun d => d.children.getD [])
                st.store pid pd { pd with children := some (cs ++ [st.store.length]) }
                hpd a
              simp only [List.flatMap_append, List.count_append, List.flatMap_cons,
                List.flatMap_nil, entryNode_children_getD, List.append_nil,
                List.length_append, List.length_set, List.length_cons,
                List.length_nil] at hcnt hset ⊢
              rw [show st.store.length + 1 = (st.store.length).succ from rfl,
                List.range_succ, List.count_append]
              simp only [hcs, Option.getD_some, List.count_append] at hset ⊢
              omega

/-! ## Path algebra for the round trip -/

theorem joinWith_append_single (c : Char) (A : List (List Char)) (x : List Char)
    (hA : A ≠ []) : joinWith [c] (A ++ [x]) = joinWith [c] A ++ c :: x := by
  induction A with
  | nil => exact absurd rfl hA
  | cons y ys ih =>
    cases ys with
    | nil => simp [joinWith]
    | cons z zs =>
      rw [show (y :: z :: zs) ++ [x] = y :: ((z :: zs) ++ [x]) from rfl]
      rw [show (z :: zs) ++ [x] = z :: (zs ++ [x]) from rfl]
      rw [joinWith_cons_cons]
      rw [show z :: (zs ++ [x]) = (z :: zs) ++ [x] from rfl]
      rw [ih (by simp)]
      rw [joinWith_cons_cons]
      simp [List.append_assoc]

theorem getLastD_append_self {l : List (List Char)} (h : l ≠ []) :
    l.dropLast ++ [l.getLastD []] = l := by
  rw [List.getLastD_eq_getLast?, List.getLast?_eq_getLast l h]
  exact List.dropLast_append_getLast h

/-- A multi-segment path is its parent path, a slash, and its last segment. -/
theorem path_parent_decomp {p : List Char} (h2 : 2 ≤ (splitSeg p).length) :
    p = parentPathOf p ++ '/' :: (splitSeg p).getLastD [] := by
  have hne : splitSeg p ≠ [] := splitOnC_ne_nil '/' p
  have hdne : (splitSeg p).dropLast ≠ [] := by
    intro hnil
    have := List.length_dropLast (splitSeg p)
    rw [hnil] at this
    simp at this
    omega
  conv_lhs => rw [show p = joinSeg (splitSeg p) from (joinWith_splitOnC '/' p).symm]
  conv_lhs => rw [show splitSeg p = (splitSeg p).dropLast ++ [(splitSeg p).getLastD []]
    from (getLastD_append_self hne).symm]
  exact joinWith_append_single '/' _ _ hdne

/-- The parent path splits back into the dropped-last segment list. -/
theorem splitSeg_parentPathOf {p : List Char} (h2 : 2 ≤ (splitSeg p).length) :
    splitSeg (parentPathOf p) = (splitSeg p).dropLast := by
  have hdne : (splitSeg p).dropLast ≠ [] := by
    intro hnil
    have := List.length_dropLast (splitSeg p)
    rw [hnil] at this
    simp at this
    omega
  exact splitOnC_joinWith '/' _ hdne
    (fun x hx => splitOnC_sep_free '/' p x ((List.dropLast_sublist _).subset hx))

/-- All ancestor directory paths of a single path are tree-entry paths. -/
def AncPresent (l : List TreeEntry) (p : List Char) : Prop :=
  ∀ k, k < (splitSeg p).length → 1 ≤ k →
    ∃ e₂ ∈ l, e₂.kind = .tree ∧ e₂.path = joinSeg ((splitSeg p).take k)

theorem ancestorsPresent_iff (l : List TreeEntry) :
    AncestorsPresent l ↔ ∀ e ∈ l, AncPresent l e.path := Iff.rfl

/-- The parent of an ancestor-covered multi-segment path is the path of some
tree entry, and is itself ancestor-covered. -/
theorem ancPresent_parent {l : List TreeEntry} {p : List Char}
    (h2 : 2 ≤ (splitSeg p).length) (hanc : AncPresent l p) :
    (∃ e₂ ∈ l, e₂.kind = .tree ∧ e₂.path = parentPathOf p) ∧
      AncPresent l (parentPathOf p) := by
  have hdl : (splitSeg p).dropLast = (splitSeg p).take ((splitSeg p).length - 1) :=
    List.dropLast_eq_take _
  constructor
  · rcases hanc ((splitSeg p).length - 1) (by omega) (by omega) with ⟨e₂, he₂, hk, hp⟩
    refine ⟨e₂, he₂, hk, ?_⟩
    rw [hp]
    unfold parentPathOf
    rw [hdl]
  · intro k hk h1
    rw [splitSeg_parentPathOf h2] at hk ⊢
    rw [List.length_dropLast] at hk
    rcases hanc k (Nat.lt_of_lt_of_le hk (Nat.sub_le _ _)) h1 with
      ⟨e₂, he₂, hkind, hp⟩
    refine ⟨e₂, he₂, hkind, ?_⟩
    rw [hp, hdl, List.take_take]
    rw [show k ⊓ ((splitSeg p).length - 1) = k from min_eq_left (Nat.le_of_lt hk)]

/-- The parent path is strictly shorter, hence different. -/
theorem parentPathOf_ne {p : List Char} (h2 : 2 ≤ (splitSeg p).length) :
    parentPathOf p ≠ p := by
  intro he
  have := path_parent_decomp h2
  rw [he] at this
  have : p.length = p.length + 1 + ((splitSeg p).getLastD []).length := by
    conv_lhs => rw [this]
    simp
    omega
  omega

/-- A tree entry for the parent path never sorts after an entry for the
child path. -/
theorem entryLe_child_parent_false {e eq : TreeEntry}
    (h2 : 2 ≤ (splitSeg e.path).length) (hkind : eq.kind = .tree)
    (hpath : eq.path = parentPathOf e.path) :
    ¬ entryLe e eq = true := by
  intro hle
  rw [entryLe_eq_true_iff] at hle
  unfold entryCompare at hle
  cases hek : e.kind with
  | blob =>
    rw [hek, hkind] at hle
    simp at hle
  | tree =>
    rw [hek, hkind] at hle
    simp at hle
    have hdecomp := path_parent_decomp h2
    have hlt : localeCompareModel (parentPathOf e.path) e.path ≤ -1 := by
      have := localeCompareModel_prefix_lt (parentPathOf e.path)
        (m := '/' :: (splitSeg e.path).getLastD []) (by simp)
      rw [← hdecomp] at this
      exact this
    rw [hpath] at hle
    rw [show localeCompareModel e.path (parentPathOf e.path) =
      -localeCompareModel (parentPathOf e.path) e.path from
        localeCompareModel_swap _ _] at hle
    omega

/-- Updating only the children of a store node leaves the path list alone. -/
theorem map_path_set {store : List NodeData} {pid : Nat} {pd upd : NodeData}
    (hpd : store[pid]? = some pd) (hpath : upd.path = pd.path) :
    (store.set pid upd).map NodeData.path = store.map NodeData.path := by
  induction store generalizing pid with
  | nil => simp at hpd
  | cons d rest ih =>
    cases pid with
    | zero =>
      rw [List.getElem?_cons_zero] at hpd
      have hdp : d = pd := (Option.some.injEq _ _).mp hpd
      subst hdp
      simp [List.set, hpath]
    | succ k =>
      rw [List.getElem?_cons_succ] at hpd
      simp [List.set, ih hpd]

/-- The store's path list is a sublist of the processed entries' path list:
each loop iteration appends at most the processed entry's path. -/
theorem buildState_paths_sublist (l : List TreeEntry) :
    ((buildState l).store.map NodeData.path).Sublist
      ((sortEntries l).map TreeEntry.path) := by
  have h := buildState_fold_inv l
    (fun st done _ =>
      (st.store.map NodeData.path).Sublist (done.map TreeEntry.path)) ?_ ?_
  · exact h
  · simp
  · intro st done e rest _ hP
    by_cases hlen : (splitSeg e.path).length = 1
    · rw [processItem_root st e hlen]
      rw [List.map_append, List.map_append]
      exact hP.append (by simp [entryNode])
    · cases hmap : mapLookup st.dirMap (parentPathOf e.path) with
      | none =>
        rw [processItem_skip_nomap st e hlen hmap, List.map_append]
        exact hP.trans (List.sublist_append_left _ _)
      | some pid =>
        cases hpd : st.store[pid]? with
        | none =>
          rw [processItem_skip_nonode st e hlen pid hmap hpd, List.map_append]
          exact hP.trans (List.sublist_append_left _ _)
        | some pd =>
          cases hcs : pd.children with
          | none =>
            rw [processItem_skip_nochildren st e hlen pid hmap pd hpd hcs,
              List.map_append]
            exact hP.trans (List.sublist_append_left _ _)
          | some cs =>
            rw [processItem_attach st e hlen pid hmap pd hpd cs hcs]
            rw [List.map_append, List.map_append]
            rw [show ((st.store.set pid
              { pd with children := some (cs ++ [st.store.length]) }).map
                NodeData.path) = st.store.map NodeData.path from
              map_path_set hpd rfl]
            exact hP.append (by simp [entryNode])

theorem mapLookup_cons (k : List Char) (v : Nat) (m : List (List Char × Nat))
    (q : List Char) :
    mapLookup ((k, v) :: m) q = if k = q then some v else mapLookup m q := rfl

/-- The attachment invariant of the builder: every map key targets a
children-bearing store node; every processed `tree` entry whose ancestors are
all present is registered in the map; every processed entry whose ancestors
are all present has contributed its path to the store. -/
theorem buildState_attach_inv (l : List TreeEntry) :
    (∀ (q : List Char) (i : Nat), mapLookup (buildState l).dirMap q = some i →
      ∃ (d : NodeData) (cs : List Nat),
        (buildState l).store[i]? = some d ∧ d.children = some cs) ∧
    (∀ e₂ ∈ sortEntries l, e₂.kind = .tree → AncPresent l e₂.path →
      ∃ i, mapLookup (buildState l).dirMap e₂.path = some i) ∧
    (∀ e₂ ∈ sortEntries l, AncPresent l e₂.path →
      e₂.path ∈ (buildState l).store.map NodeData.path) := by
  have h := buildState_fold_inv l
    (fun st done _ =>
      (∀ (q : List Char) (i : Nat), mapLookup st.dirMap q = some i →
        ∃ (d : NodeData) (cs : List Nat),
          st.store[i]? = some d ∧ d.children = some cs) ∧
      (∀ e₂ ∈ done, e₂.kind = .tree → AncPresent l e₂.path →
        ∃ i, mapLookup st.dirMap e₂.path = some i) ∧
      (∀ e₂ ∈ done, AncPresent l e₂.path →
        e₂.path ∈ st.store.map NodeData.path)) ?_ ?_
  · exact h
  · refine ⟨?_, ?_, ?_⟩
    · intro q i hq; simp [mapLookup] at hq
    · intro e₂ he₂; simp at he₂
    · intro e₂ he₂; simp at he₂
  · intro st done e rest hsor hP
    obtain ⟨hK1, hK2, hK3⟩ := hP
    have hready : AncPresent l e.path → ¬ (splitSeg e.path).length = 1 →
        ∃ pid, mapLookup st.dirMap (parentPathOf e.path) = some pid := by
      intro hanc hlen
      have hsplen : 2 ≤ (splitSeg e.path).length := by
        have hpos : 0 < (splitSeg e.path).length :=
          List.length_pos.mpr (splitOnC_ne_nil '/' e.path)
        omega
      rcases ancPresent_parent hsplen hanc with ⟨⟨eq, heql, heqk, heqp⟩, hancq⟩
      have heqs : eq ∈ sortEntries l := (sortEntries_perm l).mem_iff.mpr heql
      rw [hsor] at heqs
      rcases List.mem_append.mp heqs with heqd | heqr
      · rcases hK2 eq heqd heqk (by rw [heqp]; exact hancq) with ⟨i, hi⟩
        exact ⟨i, by rw [← heqp]; exact hi⟩
      · exfalso
        rcases List.mem_cons.mp heqr with heqe | heqr
        · have hpp : eq.path = e.path := by rw [heqe]
          rw [heqp] at hpp
          exact parentPathOf_ne hsplen hpp
        · have hpw := sortEntries_sorted l
          rw [hsor] at hpw
          have hpw2 := (List.pairwise_append.mp hpw).2.1
          have hle := (List.pairwise_cons.mp hpw2).1 eq heqr
          exact entryLe_child_parent_false hsplen heqk heqp hle
    by_cases hlen : (splitSeg e.path).length = 1
    · -- root-level branch
      rw [processItem_root st e hlen]
      have hlift : ∀ (i : Nat) (d : NodeData), st.store[i]? = some d →
          (st.store ++ [entryNode e])[i]? = some d := by
        intro i d hd
        rw [List.getElem?_append_left (List.getElem?_eq_some_iff.mp hd).1]
        exact hd
      refine ⟨?_, ?_, ?_⟩
      · intro q i hq
        by_cases hk : e.kind = .tree
        · rw [if_pos hk, mapLookup_cons] at hq
          by_cases hpq : e.path = q
          · rw [if_pos hpq] at hq
            have hi : i = st.store.length := ((Option.some.injEq _ _).mp hq).symm
            subst hi
            exact ⟨entryNode e, [], List.getElem?_concat_length _ _,
              by simp [entryNode, hk]⟩
          · rw [if_neg hpq] at hq
            rcases hK1 q i hq with ⟨d, cs, hd, hc⟩
            exact ⟨d, cs, hlift i d hd, hc⟩
        · rw [if_neg hk] at hq
          rcases hK1 q i hq with ⟨d, cs, hd, hc⟩
          exact ⟨d, cs, hlift i d hd, hc⟩
      · intro e₂ hmem htree hanc
        rcases List.mem_append.mp hmem with hold | hnew
        · rcases hK2 e₂ hold htree hanc with ⟨i, hi⟩
          by_cases hk : e.kind = .tree
          · rw [if_pos hk, mapLookup_cons]
            by_cases hpq : e.path = e₂.path
            · exact ⟨st.store.length, by rw [if_pos hpq]⟩
            · exact ⟨i, by rw [if_neg hpq]; exact hi⟩
          · exact ⟨i, by rw [if_neg hk]; exact hi⟩
        · rcases List.mem_singleton.mp hnew with rfl
          rw [if_pos htree, mapLookup_cons]
          exact ⟨st.store.length, by rw [if_pos rfl]⟩
      · intro e₂ hmem hanc
        rw [List.map_append]
        rcases List.mem_append.mp hmem with hold | hnew
        · exact List.mem_append_left _ (hK3 e₂ hold hanc)
        · rcases List.mem_singleton.mp hnew with rfl
          exact List.mem_append_right _ (by simp [entryNode])
    · cases hmap : mapLookup st.dirMap (parentPathOf e.path) with
      | none =>
        rw [processItem_skip_nomap st e hlen hmap]
        refine ⟨hK1, ?_, ?_⟩
        · intro e₂ hmem htree hanc
          rcases List.mem_append.mp hmem with hold | hnew
          · exact hK2 e₂ hold htree hanc
          · rcases List.mem_singleton.mp hnew with rfl
            rcases hready hanc hlen with ⟨pid, hpid⟩
            rw [hmap] at hpid
            exact Option.noConfusion hpid
        · intro e₂ hmem hanc
          rcases List.mem_append.mp hmem with hold | hnew
          · exact hK3 e₂ hold hanc
          · rcases List.mem_singleton.mp hnew with rfl
            rcases hready hanc hlen with ⟨pid, hpid⟩
            rw [hmap] at hpid
            exact Option.noConfusion hpid
      | some pid =>
        cases hpd : st.store[pid]? with
        | none =>
          exfalso
          rcases hK1 (parentPathOf e.path) pid hmap with ⟨d, cs, hd, _⟩
          rw [hpd] at hd
          exact Option.noConfusion hd
        | some pd =>
          cases hcs : pd.children with
          | none =>
            exfalso
            rcases hK1 (parentPathOf e.path) pid hmap with ⟨d, cs, hd, hc⟩
            rw [hpd] at hd
            have hdp : pd = d := (Option.some.injEq _ _).mp hd
            rw [← hdp, hcs] at hc
            exact Option.noConfusion hc
          | some cs =>
            rw [processItem_attach st e hlen pid hmap pd hpd cs hcs]
            have hpidlt : pid < st.store.length :=
              (List.getElem?_eq_some_iff.mp hpd).1
            have hlift : ∀ (i : Nat) (d : NodeData), st.store[i]? = some d →
                i ≠ pid →
                ((st.store.set pid
                  { pd with children := some (cs ++ [st.store.length]) }) ++
                    [entryNode e])[i]? = some d := by
              intro i d hd hne
              rw [List.getElem?_append_left
                (by rw [List.length_set]; exact (List.getElem?_eq_some_iff.mp hd).1)]
              rw [List.getElem?_set_ne (fun hh => hne hh.symm)]
              exact hd
            have hpidnew : ((st.store.set pid
                { pd with children := some (cs ++ [st.store.length]) }) ++
                  [entryNode e])[pid]? =
                some { pd with children := some (cs ++ [st.store.length]) } := by
              rw [List.getElem?_append_left (by rw [List.length_set]; exact hpidlt)]
              exact List.getElem?_set_self hpidlt
            have hnewnode : ((st.store.set pid
                { pd with children := some (cs ++ [st.store.length]) }) ++
                  [entryNode e])[st.store.length]? = some (entryNode e) := by
              rw [List.getElem?_append_right (by simp [List.length_set])]
              simp [List.length_set]
            refine ⟨?_, ?_, ?_⟩
            · intro q i hq
              have hfromold : mapLookup st.dirMap q = some i →
                  ∃ (d : NodeData) (cs₂ : List Nat),
                    ((st.store.set pid
                      { pd with children := some (cs ++ [st.store.length]) }) ++
                        [entryNode e])[i]? = some d ∧ d.children = some cs₂ := by
                intro hq₂
                rcases hK1 q i hq₂ with ⟨d, cs₂, hd, hc⟩
                by_cases hip : i = pid
                · subst hip
                  exact ⟨{ pd with children := some (cs ++ [st.store.length]) },
                    cs ++ [st.store.length], hpidnew, rfl⟩
                · exact ⟨d, cs₂, hlift i d hd hip, hc⟩
              by_cases hk : e.kind = .tree
              · rw [if_pos hk, mapLookup_cons] at hq
                by_cases hpq : e.path = q
                · rw [if_pos hpq] at hq
                  have hi : i = st.store.length := ((Option.some.injEq _ _).mp hq).symm
                  subst hi
                  exact ⟨entryNode e, [], hnewnode, by simp [entryNode, hk]⟩
                · rw [if_neg hpq] at hq
                  exact hfromold hq
              · rw [if_neg hk] at hq
                exact hfromold hq
            · intro e₂ hmem htree hanc
              rcases List.mem_append.mp hmem with hold | hnew
              · rcases hK2 e₂ hold htree hanc with ⟨i, hi⟩
                by_cases hk : e.kind = .tree
                · rw [if_pos hk, mapLookup_cons]
                  by_cases hpq : e.path = e₂.path
                  · exact ⟨st.store.length, by rw [if_pos hpq]⟩
                  · exact ⟨i, by rw [if_neg hpq]; exact hi⟩
                · exact ⟨i, by rw [if_neg hk]; exact hi⟩
              · rcases List.mem_singleton.mp hnew with rfl
                rw [if_pos htree, mapLookup_cons]
                exact ⟨st.store.length, by rw [if_pos rfl]⟩
            · intro e₂ hmem hanc
              rw [List.map_append,
                show ((st.store.set pid
                  { pd with children := some (cs ++ [st.store.length]) }).map
                    NodeData.path) = st.store.map NodeData.path from
                  map_path_set hpd rfl]
              rcases List.mem_append.mp hmem with hold | hnew
              · exact List.mem_append_left _ (hK3 e₂ hold hanc)
              · rcases List.mem_singleton.mp hnew with rfl
                exact List.mem_append_right _ (by simp [entryNode])

theorem count_eq_one_of_mem_nodup {α : Type} [BEq α] [LawfulBEq α] {a : α}
    {L : List α} (hnd : L.Nodup) (hmem : a ∈ L) : List.count a L = 1 := by
  induction L with
  | nil => simp at hmem
  | cons b rest ih =>
    rcases List.mem_cons.mp hmem with rfl | hmem₂
    · rw [List.count_cons]
      rw [List.count_eq_zero.mpr (List.nodup_cons.mp hnd).1]
      simp
    · rw [List.count_cons]
      have hne : a ≠ b := by
        rintro rfl
        exact (List.nodup_cons.mp hnd).1 hmem₂
      rw [ih (List.nodup_cons.mp hnd).2 hmem₂]
      have hne₂ : ¬ b = a := fun h => hne h.symm
      simp [hne, hne₂]

/-- C3 (amended): for every flat entry list in which every ancestor directory
of every entry is present as an explicit tree-kind entry **and no two entries
share a path**, each blob-kind path of the input appears in the reconstructed
output at exactly one node, and that node's `path` equals the input path
exactly. -/
theorem c3_roundtrip (l : List TreeEntry)
    (hanc : AncestorsPresent l)
    (hnodup : (l.map TreeEntry.path).Nodup) :
    ∀ e ∈ l, e.kind = .blob → countPathForest e.path (buildFileTree l) = 1 := by
  intro e hel hblob
  have hFR := buildState_fwd_refs l
  have hcount : countPathForest e.path (buildFileTree l) =
      List.count e.path ((buildState l).store.map NodeData.path) :=
    count_transfer hFR.1 hFR.2 e.path
  rw [hcount]
  have hnodup₂ : ((sortEntries l).map TreeEntry.path).Nodup :=
    ((sortEntries_perm l).map TreeEntry.path).nodup_iff.mpr hnodup
  have hnodup₃ : ((buildState l).store.map NodeData.path).Nodup :=
    (buildState_paths_sublist l).nodup hnodup₂
  have hmem : e.path ∈ (buildState l).store.map NodeData.path :=
    (buildState_attach_inv l).2.2 e ((sortEntries_perm l).mem_iff.mpr hel)
      ((ancestorsPresent_iff l).mp hanc e hel)
  exact count_eq_one_of_mem_nodup hnodup₃ hmem

/-- Witness for the amended round trip on the concrete scenario input. -/
theorem c3_roundtrip_witness :
    countPathForest (strL "src/index.ts") (buildFileTree c1Input) = 1 :=
  c3_roundtrip c1Input (by decide) (by decide) ⟨strL "src/index.ts", .blob⟩
    (by decide) rfl

/-! ## Claim C5 — the large-repository reduction -/

/-- `arr.slice(0, end)` with a possibly negative end index: JavaScript
interprets a negative end as counting from the end of the array. -/
def jsSliceTo {α : Type} (l : List α) (e : Int) : List α :=
  if 0 ≤ e then l.take e.toNat else l.take (l.length - e.natAbs)

/-- The `importantPaths` set of fetchGitHubFileTree. -/
def importantPaths : List (List Char) :=
  [strL "README.md", strL "README.rst", strL "README.txt",
   strL "package.json", strL "requirements.txt", strL "Cargo.toml",
   strL "Dockerfile", strL "docker-compose.yml",
   strL ".gitignore", strL "LICENSE", strL "CONTRIBUTING.md"]

def MAX_FILES : Nat := 1000

/-- `importantPaths.has(item.path)`. -/
def isImportant (e : TreeEntry) : Bool := importantPaths.contains e.path

/-- Lines 193–217 of fetch_github_repo.ts: the reduction applied to the raw
entry list when it is too large. -/
def reduceTree (tree : List TreeEntry) : List TreeEntry :=
  if tree.length > MAX_FILES then
    let important := tree.filter (fun e =>
      isImportant e || decide ((splitSeg e.path).length ≤ 2))
    let remaining := jsSliceTo
      (tree.filter (fun e =>
        !(isImportant e) && decide (2 < (splitSeg e.path).length)))
      ((MAX_FILES : Int) - important.length)
    important ++ remaining
  else tree

/-- The raw list of C5's counterexample: 1001 shallow entries. -/
def c5Input : List TreeEntry := List.replicate 1001 ⟨strL "a", .blob⟩

theorem c5Input_length : c5Input.length = 1001 := by
  rw [show c5Input = List.replicate 1001 ⟨strL "a", .blob⟩ from rfl,
    List.length_replicate]

theorem jsSliceTo_nil {α : Type} (e : Int) : jsSliceTo ([] : List α) e = [] := by
  unfold jsSliceTo
  split <;> simp

/-- C5, counterexample: when the always-retained entries alone number more
than the ceiling, the reduced list exceeds 1000 entries. -/
theorem c5_counterexample :
    c5Input.length > 1000 ∧ (reduceTree c5Input).length = 1001 ∧
      ¬ (1001 : Nat) ≤ 1000 := by
  have h1 : c5Input.length = 1001 := c5Input_length
  have hkeep : c5Input.filter (fun e =>
      isImportant e || decide ((splitSeg e.path).length ≤ 2)) = c5Input := by
    apply List.filter_eq_self.mpr
    intro e he
    have he₂ : e = ⟨strL "a", .blob⟩ := List.eq_of_mem_replicate he
    subst he₂
    decide
  have hdrop : c5Input.filter (fun e =>
      !(isImportant e) && decide (2 < (splitSeg e.path).length)) = [] := by
    apply List.filter_eq_nil_iff.mpr
    intro e he
    have he₂ : e = ⟨strL "a", .blob⟩ := List.eq_of_mem_replicate he
    subst he₂
    decide
  refine ⟨by omega, ?_, by omega⟩
  rw [show reduceTree c5Input =
    (if c5Input.length > MAX_FILES then
      c5Input.filter (fun e =>
        isImportant e || decide ((splitSeg e.path).length ≤ 2)) ++
      jsSliceTo
        (c5Input.filter (fun e =>
          !(isImportant e) && decide (2 < (splitSeg e.path).length)))
        ((MAX_FILES : Int) -
          (c5Input.filter (fun e =>
            isImportant e || decide ((splitSeg e.path).length ≤ 2))).length)
    else c5Input) from rfl]
  rw [if_pos (by rw [h1]; decide), hkeep, hdrop, jsSliceTo_nil,
    List.append_nil, h1]

/-- C5 (amended): the reduction retains every important-or-shallow entry,
fills the remainder with a prefix of the other entries in their given order,
leaves small lists unchanged, and the reduced list stays within 1000 entries
provided the retained important entries alone number at most 1000 (otherwise
it can exceed the ceiling). -/
theorem c5_reduction (tree : List TreeEntry) :
    (tree.length ≤ 1000 → reduceTree tree = tree) ∧
    (tree.length > 1000 →
      (∀ e ∈ tree,
        (isImportant e || decide ((splitSeg e.path).length ≤ 2)) = true →
          e ∈ reduceTree tree) ∧
      (∃ k, reduceTree tree =
        tree.filter (fun e =>
          isImportant e || decide ((splitSeg e.path).length ≤ 2)) ++
        (tree.filter (fun e =>
          !(isImportant e) && decide (2 < (splitSeg e.path).length))).take k) ∧
      ((tree.filter (fun e =>
          isImportant e || decide ((splitSeg e.path).length ≤ 2))).length ≤ 1000 →
        (reduceTree tree).length ≤ 1000)) := by
  constructor
  · intro hle
    rw [reduceTree, if_neg (by simp only [MAX_FILES]; omega)]
  · intro hgt
    have hred : reduceTree tree =
        tree.filter (fun e =>
          isImportant e || decide ((splitSeg e.path).length ≤ 2)) ++
        jsSliceTo
          (tree.filter (fun e =>
            !(isImportant e) && decide (2 < (splitSeg e.path).length)))
          ((MAX_FILES : Int) -
            (tree.filter (fun e =>
              isImportant e || decide ((splitSeg e.path).length ≤ 2))).length) := by
      rw [reduceTree, if_pos (by simp only [MAX_FILES]; omega)]
    refine ⟨?_, ?_, ?_⟩
    · intro e he hkeep
      rw [hred]
      exact List.mem_append_left _ (List.mem_filter.mpr ⟨he, hkeep⟩)
    · rw [hred]
      unfold jsSliceTo
      by_cases hpos : (0 : Int) ≤ (MAX_FILES : Int) -
          (tree.filter (fun e =>
            isImportant e || decide ((splitSeg e.path).length ≤ 2))).length
      · rw [if_pos hpos]
        exact ⟨_, rfl⟩
      · rw [if_neg hpos]
        exact ⟨_, rfl⟩
    · intro himp
      rw [hred]
      unfold jsSliceTo
      rw [if_pos (by simp only [MAX_FILES]; omega)]
      rw [List.length_append]
      have htake := List.length_take_le
        (((MAX_FILES : Int) -
          (tree.filter (fun e =>
            isImportant e || decide ((splitSeg e.path).length ≤ 2))).length).toNat)
        (tree.filter (fun e =>
          !(isImportant e) && decide (2 < (splitSeg e.path).length)))
      simp only [MAX_FILES] at htake ⊢
      omega

/-- Witness for the amended C5 on concrete inputs: a small list is unchanged,
and the important entries survive the reduction of a large list. -/
theorem c5_reduction_witness :
    reduceTree [(⟨strL "a", .blob⟩ : TreeEntry)] = [⟨strL "a", .blob⟩] ∧
    (⟨strL "a", .blob⟩ : TreeEntry) ∈ reduceTree c5Input :=
  ⟨(c5_reduction _).1 (by decide),
   ((c5_reduction c5Input).2 (by rw [c5Input_length]; omega)).1 _
     (List.mem_replicate.mpr ⟨by decide, rfl⟩) (by decide)⟩

/-! ## Claim C6 — HTTP response classification -/

/-- A completed HTTP response as makeGitHubApiRequest observes it:
`bodyMessage` models `errorData.message` of the parsed JSON body (`none`
when parsing failed or the field is absent). -/
structure HttpResponse where
  status : Nat
  bodyMessage : Option (List Char)
deriving DecidableEq, Repr

/-- The distinct failures thrown by makeGitHubApiRequest (part_003, lines
74–88). -/
inductive GitHubApiError where
  | repositoryNotFound
  | rateLimitExceeded
  | accessForbidden
  | invalidCredential
  | upstreamApiError (status : Nat)
deriving DecidableEq, Repr

/-- JS `hay.includes(needle)`: contiguous-substring test. -/
def includesSub (needle : List Char) : List Char → Bool
  | [] => needle.isEmpty
  | a :: rest => needle.isPrefixOf (a :: rest) || includesSub needle rest

/-- The rate-limit test applied to the optional body message. -/
def rateLimitMsg : Option (List Char) → Bool
  | some m => includesSub (strL "rate limit") m
  | none => false

/-- Lines 59–98 of part_003 (makeGitHubApiRequest): `response.ok` is status
200–299; otherwise classify 404, then 403 (splitting on a rate-limit
indicator in `errorData.message`), then 401, then everything else. -/
def classifyGitHubResponse (r : HttpResponse) : Option GitHubApiError :=
  if 200 ≤ r.status ∧ r.status ≤ 299 then none
  else if r.status = 404 then some .repositoryNotFound
  else if r.status = 403 then
    if rateLimitMsg r.bodyMessage then some .rateLimitExceeded
    else some .accessForbidden
  else if r.status = 401 then some .invalidCredential
  else some (.upstreamApiError r.status)

theorem classifyGitHubResponse_mk (s : Nat) (b : Option (List Char)) :
    classifyGitHubResponse ⟨s, b⟩ =
      if 200 ≤ s ∧ s ≤ 299 then none
      else if s = 404 then some .repositoryNotFound
      else if s = 403 then
        if rateLimitMsg b then some .rateLimitExceeded
        else some .accessForbidden
      else if s = 401 then some .invalidCredential
      else some (.upstreamApiError s) := rfl

/-- C6: the classification is total and exclusive over status codes — 404
maps to repository-not-found; 403 with a rate-limit indicator in the body to
rate-limit-exceeded, other 403s to access-forbidden; 401 to
invalid-credential; every other non-2xx to an upstream error carrying the
status; 2xx responses produce no error; and every non-2xx response produces
exactly one error. -/
theorem c6_status_classification (status : Nat) (body : Option (List Char)) :
    (status = 404 →
      classifyGitHubResponse ⟨status, body⟩ = some .repositoryNotFound) ∧
    (status = 403 → rateLimitMsg body = true →
      classifyGitHubResponse ⟨status, body⟩ = some .rateLimitExceeded) ∧
    (status = 403 → rateLimitMsg body = false →
      classifyGitHubResponse ⟨status, body⟩ = some .accessForbidden) ∧
    (status = 401 →
      classifyGitHubResponse ⟨status, body⟩ = some .invalidCredential) ∧
    (¬ (200 ≤ status ∧ status ≤ 299) → status ≠ 404 → status ≠ 403 →
      status ≠ 401 →
      classifyGitHubResponse ⟨status, body⟩ = some (.upstreamApiError status)) ∧
    ((200 ≤ status ∧ status ≤ 299) →
      classifyGitHubResponse ⟨status, body⟩ = none) ∧
    (¬ (200 ≤ status ∧ status ≤ 299) →
      ∃ err, classifyGitHubResponse ⟨status, body⟩ = some err) := by
  rw [classifyGitHubResponse_mk]
  refine ⟨?_, ?_, ?_, ?_, ?_, ?_, ?_⟩
  · rintro rfl
    rw [if_neg (by omega), if_pos rfl]
  · rintro rfl hrl
    rw [if_neg (by omega), if_neg (by omega), if_pos rfl, if_pos hrl]
  · rintro rfl hrl
    rw [if_neg (by omega), if_neg (by omega), if_pos rfl,
      if_neg (by rw [hrl]; exact Bool.false_ne_true)]
  · rintro rfl
    rw [if_neg (by omega), if_neg (by omega), if_neg (by omega), if_pos rfl]
  · intro hok h404 h403 h401
    rw [if_neg hok, if_neg h404, if_neg h403, if_neg h401]
  · intro hok
    rw [if_pos hok]
  · intro hok
    rw [if_neg hok]
    by_cases h404 : status = 404
    · rw [if_pos h404]; exact ⟨_, rfl⟩
    · rw [if_neg h404]
      by_cases h403 : status = 403
      · rw [if_pos h403]
        by_cases hrl : rateLimitMsg body = true
        · exact ⟨_, by rw [if_pos hrl]⟩
        · exact ⟨_, by rw [if_neg hrl]⟩
      · rw [if_neg h403]
        by_cases h401 : status = 401
        · rw [if_pos h401]; exact ⟨_, rfl⟩
        · rw [if_neg h401]; exact ⟨_, rfl⟩

/-- Witness for C6: each branch exercised at a concrete response. -/
theorem c6_status_classification_witness :
    classifyGitHubResponse ⟨404, none⟩ = some .repositoryNotFound ∧
    classifyGitHubResponse ⟨403, some (strL "API rate limit exceeded")⟩ =
      some .rateLimitExceeded ∧
    classifyGitHubResponse ⟨403, some (strL "Must have push access")⟩ =
      some .accessForbidden ∧
    classifyGitHubResponse ⟨401, none⟩ = some .invalidCredential ∧
    classifyGitHubResponse ⟨500, none⟩ = some (.upstreamApiError 500) ∧
    classifyGitHubResponse ⟨200, none⟩ = none :=
  ⟨(c6_status_classification 404 none).1 rfl,
   (c6_status_classification 403 _).2.1 rfl (by decide),
   (c6_status_classification 403 _).2.2.1 rfl (by decide),
   (c6_status_classification 401 none).2.2.2.1 rfl,
   (c6_status_classification 500 none).2.2.2.2.1 (by omega) (by omega)
     (by omega) (by omega),
   (c6_status_classification 200 none).2.2.2.2.2.1 (by omega)⟩

/-! ## Claim C7 — GitHub URL parsing -/

/-- ASCII letter test (Bool-valued). -/
def isAsciiLetterC (c : Char) : Bool :=
  (97 ≤ c.toNat && c.toNat ≤ 122) || (65 ≤ c.toNat && c.toNat ≤ 90)

/-- Characters allowed after the first in a URL scheme. -/
def isSchemeTail (c : Char) : Bool :=
  isAsciiLetterC c || (48 ≤ c.toNat && c.toNat ≤ 57) ||
    c == '+' || c == '-' || c == '.'

/-- ASCII lowercasing of one character. -/
def toLowerC (c : Char) : Char :=
  if 65 ≤ c.toNat ∧ c.toNat ≤ 90 then Char.ofNat (c.toNat + 32) else c

/-- The suffix of `l` after its last `@` (the whole of `l` when it has
none): WHATWG userinfo stripping. -/
def afterLastAt : List Char → List Char
  | [] => []
  | c :: rest =>
    if rest.contains '@' then afterLastAt rest
    else if c == '@' then rest else c :: rest

/-- What the program observes of the platform's WHATWG `new URL(...)`. -/
structure UrlModel where
  host : List Char
  pathname : List Char
deriving DecidableEq, Repr

/-- Model of the platform's `new URL(s)` restricted to the two fields the
program reads (`hostname`, `pathname`), for hierarchical `scheme://...`
URLs: scheme of letters, digits, plus, minus and dot starting with a
letter, then `://`,
then the authority up to the first `/ ? #` (userinfo before the last `@`
stripped, port after `:` stripped, host lowercased and required nonempty),
then the path up to the first `? #`, defaulting to `/`. Non-hierarchical
inputs (no `://`) are modelled as parse failures; in the source those
inputs likewise never reach the success path, since their hostname is
empty and `github.com` is nonempty. -/
def parseUrlModel (s : List Char) : Option UrlModel :=
  match s with
  | [] => none
  | c :: _ =>
    if isAsciiLetterC c then
      match s.drop (s.takeWhile isSchemeTail).length with
      | ':' :: '/' :: '/' :: tail =>
        let authority := tail.takeWhile fun c => !(c == '/' || c == '?' || c == '#')
        let afterAuth := tail.drop authority.length
        let host := ((afterLastAt authority).takeWhile fun c => !(c == ':')).map toLowerC
        if host.isEmpty then none
        else
          let rawPath := afterAuth.takeWhile fun c => !(c == '?' || c == '#')
          some ⟨host, if rawPath.isEmpty then strL "/" else rawPath⟩
      | _ => none
    else none

/-- JS `repo.replace(/\.git$/, '')`: drop a trailing `.git` if present. -/
def stripDotGit (r : List Char) : List Char :=
  if 4 ≤ r.length ∧ r.drop (r.length - 4) = strL ".git" then
    r.take (r.length - 4)
  else r

/-- Lines 32–54 of part_003 (parseGitHubUrl): parse the URL, require host
`github.com`, split the pathname on `/` discarding falsy (empty) segments,
require at least two segments, return (owner, repo-with-.git-stripped);
every thrown message is wrapped by the catch into
`Failed to parse GitHub URL: ...`. -/
def parseGitHubUrl (githubUrl : List Char) :
    Except (List Char) (List Char × List Char) :=
  match parseUrlModel githubUrl with
  | none => .error (strL "Failed to parse GitHub URL: Invalid URL")
  | some u =>
    if u.host ≠ strL "github.com" then
      .error (strL "Failed to parse GitHub URL: URL must be from github.com")
    else
      match (splitOnC '/' u.pathname).filter (fun seg => !seg.isEmpty) with
      | owner :: repo :: _ => .ok (owner, stripDotGit repo)
      | _ => .error (strL "Failed to parse GitHub URL: Invalid GitHub URL format")

theorem parseGitHubUrl_none (s : List Char) (h : parseUrlModel s = none) :
    parseGitHubUrl s = .error (strL "Failed to parse GitHub URL: Invalid URL") := by
  rw [parseGitHubUrl, h]

theorem parseGitHubUrl_some (s : List Char) (u : UrlModel)
    (h : parseUrlModel s = some u) :
    parseGitHubUrl s =
      if u.host ≠ strL "github.com" then
        .error (strL "Failed to parse GitHub URL: URL must be from github.com")
      else
        match (splitOnC '/' u.pathname).filter (fun seg => !seg.isEmpty) with
        | owner :: repo :: _ => .ok (owner, stripDotGit repo)
        | _ => .error (strL "Failed to parse GitHub URL: Invalid GitHub URL format") := by
  rw [parseGitHubUrl, h]

/-- C7: the parser errors for every input the URL model rejects, for every
parsed URL whose host is not github.com, and for every parsed URL whose
pathname yields fewer than two nonempty `/`-segments; on every accepted
input it returns the first segment as owner and the second with a trailing
`.git` stripped as repo (and stripping removes exactly a trailing `.git`,
leaving other names untouched); success is exactly the conjunction of the
three conditions. -/
theorem c7_url_parsing (s : List Char) :
    (parseUrlModel s = none →
      parseGitHubUrl s = .error (strL "Failed to parse GitHub URL: Invalid URL")) ∧
    (∀ (u : UrlModel), parseUrlModel s = some u → u.host ≠ strL "github.com" →
      parseGitHubUrl s =
        .error (strL "Failed to parse GitHub URL: URL must be from github.com")) ∧
    (∀ (u : UrlModel), parseUrlModel s = some u → u.host = strL "github.com" →
      ((splitOnC '/' u.pathname).filter (fun seg => !seg.isEmpty)).length < 2 →
      parseGitHubUrl s =
        .error (strL "Failed to parse GitHub URL: Invalid GitHub URL format")) ∧
    (∀ (u : UrlModel) (owner repo : List Char) (rest : List (List Char)),
      parseUrlModel s = some u → u.host = strL "github.com" →
      (splitOnC '/' u.pathname).filter (fun seg => !seg.isEmpty) =
        owner :: repo :: rest →
      parseGitHubUrl s = .ok (owner, stripDotGit repo)) ∧
    (∀ (r : List Char), stripDotGit (r ++ strL ".git") = r) ∧
    (∀ (r : List Char),
      ¬ (4 ≤ r.length ∧ r.drop (r.length - 4) = strL ".git") →
      stripDotGit r = r) ∧
    ((∃ p, parseGitHubUrl s = .ok p) ↔
      ∃ (u : UrlModel), parseUrlModel s = some u ∧ u.host = strL "github.com" ∧
        2 ≤ ((splitOnC '/' u.pathname).filter (fun seg => !seg.isEmpty)).length) := by
  refine ⟨parseGitHubUrl_none s, ?_, ?_, ?_, ?_, ?_, ?_⟩
  · intro u hM hne
    rw [parseGitHubUrl_some s u hM, if_pos hne]
  · intro u hM hh hlen
    rw [parseGitHubUrl_some s u hM, if_neg (not_not_intro hh)]
    rcases hps : (splitOnC '/' u.pathname).filter (fun seg => !seg.isEmpty) with
      _ | ⟨a, _ | ⟨b, t⟩⟩
    · rw [hps]
    · rw [hps]
    · rw [hps] at hlen
      simp only [List.length_cons] at hlen
      omega
  · intro u owner repo rest hM hh hps
    rw [parseGitHubUrl_some s u hM, if_neg (not_not_intro hh), hps]
  · intro r
    have h4 : (strL ".git").length = 4 := rfl
    have hlen : (r ++ strL ".git").length = r.length + 4 := by
      rw [List.length_append, h4]
    have hc : 4 ≤ (r ++ strL ".git").length ∧
        (r ++ strL ".git").drop ((r ++ strL ".git").length - 4) = strL ".git" := by
      refine ⟨by omega, ?_⟩
      rw [hlen, Nat.add_sub_cancel]
      exact List.drop_left r (strL ".git")
    rw [stripDotGit, if_pos hc, hlen, Nat.add_sub_cancel]
    exact List.take_left r (strL ".git")
  · intro r hc
    rw [stripDotGit, if_neg hc]
  · constructor
    · rintro ⟨p, hp⟩
      cases hM : parseUrlModel s with
      | none =>
        rw [parseGitHubUrl_none s hM] at hp
        simp at hp
      | some u =>
        rw [parseGitHubUrl_some s u hM] at hp
        by_cases hh : u.host = strL "github.com"
        · rw [if_neg (not_not_intro hh)] at hp
          rcases hps : (splitOnC '/' u.pathname).filter (fun seg => !seg.isEmpty)
            with _ | ⟨a, _ | ⟨b, t⟩⟩
          · rw [hps] at hp; simp at hp
          · rw [hps] at hp; simp at hp
          · exact ⟨u, rfl, hh, by rw [hps]; simp only [List.length_cons]; omega⟩
        · rw [if_pos hh] at hp
          simp at hp
    · rintro ⟨u, hM, hh, hlen⟩
      rcases hps : (splitOnC '/' u.pathname).filter (fun seg => !seg.isEmpty) with
        _ | ⟨a, _ | ⟨b, t⟩⟩
      · rw [hps] at hlen; simp at hlen
      · rw [hps] at hlen; simp at hlen
      · exact ⟨(a, stripDotGit b),
          by rw [parseGitHubUrl_some s u hM, if_neg (not_not_intro hh), hps]⟩

/-- Witness for C7: each branch at a concrete URL string. -/
theorem c7_url_parsing_witness :
    parseGitHubUrl (strL "https://github.com/foo/bar.git") =
      .ok (strL "foo", strL "bar") ∧
    parseGitHubUrl (strL "https://gitlab.com/foo/bar") =
      .error (strL "Failed to parse GitHub URL: URL must be from github.com") ∧
    parseGitHubUrl (strL "https://github.com/foo") =
      .error (strL "Failed to parse GitHub URL: Invalid GitHub URL format") ∧
    parseGitHubUrl (strL "not a url") =
      .error (strL "Failed to parse GitHub URL: Invalid URL") :=
  ⟨((c7_url_parsing (strL "https://github.com/foo/bar.git")).2.2.2.1
      ⟨strL "github.com", strL "/foo/bar.git"⟩ (strL "foo") (strL "bar.git") []
      (by decide) rfl (by decide)).trans
     (congrArg Except.ok (by decide)),
   (c7_url_parsing (strL "https://gitlab.com/foo/bar")).2.1
      ⟨strL "gitlab.com", strL "/foo/bar"⟩ (by decide) (by decide),
   (c7_url_parsing (strL "https://github.com/foo")).2.2.1
      ⟨strL "github.com", strL "/foo"⟩ (by decide) rfl (by decide),
   (c7_url_parsing (strL "not a url")).1 (by decide)⟩

/-! ## Claim C9 — delete README by identifier -/

/-- A persisted row of generated_readmes (id is the serial primary key). -/
structure ReadmeRecord where
  id : Nat
  repositoryUrl : List Char
  repositoryName : List Char
  generatedContent : List Char
deriving DecidableEq, Repr

/-- deleteReadme of list_readmes.ts (lines 44–64): delete-where-id-equals
returning the deleted rows; zero deleted rows throws
`README with ID {id} not found`, otherwise report success. The returned
table is the remaining rows. -/
def deleteReadme (rows : List ReadmeRecord) (i : Nat) :
    Except (List Char) (List ReadmeRecord × Bool) :=
  if (rows.filter fun r => r.id == i).length = 0 then
    .error (strL "README with ID " ++ strL (toString i) ++ strL " not found")
  else .ok (rows.filter fun r => !(r.id == i), true)

theorem deleteReadme_no_match (rows : List ReadmeRecord) (i : Nat)
    (hno : ∀ r ∈ rows, r.id ≠ i) :
    deleteReadme rows i =
      .error (strL "README with ID " ++ strL (toString i) ++ strL " not found") := by
  have hfil : (rows.filter fun r => r.id == i) = [] := by
    rw [List.filter_eq_nil_iff]
    intro r hr
    simp only [beq_iff_eq]
    exact hno r hr
  rw [deleteReadme, hfil]
  rfl

/-- C9: deleting an identifier that matches no row errors with the
not-found message; deleting the identifier of a uniquely matching row
removes exactly that row, keeps every other row in order, and reports
success; and an error occurs exactly when no row matches. -/
theorem c9_delete_by_id (rows : List ReadmeRecord) (i : Nat) :
    ((∀ r ∈ rows, r.id ≠ i) →
      deleteReadme rows i =
        .error (strL "README with ID " ++ strL (toString i) ++ strL " not found")) ∧
    (∀ (pre : List ReadmeRecord) (r : ReadmeRecord) (post : List ReadmeRecord),
      rows = pre ++ r :: post → r.id = i →
      (∀ r' ∈ pre, r'.id ≠ i) → (∀ r' ∈ post, r'.id ≠ i) →
      deleteReadme rows i = .ok (pre ++ post, true)) ∧
    ((∃ e, deleteReadme rows i = .error e) ↔ ∀ r ∈ rows, r.id ≠ i) := by
  refine ⟨deleteReadme_no_match rows i, ?_, ?_⟩
  · rintro pre r post rfl hid hpre hpost
    have hpre₁ : pre.filter (fun x => x.id == i) = [] := by
      rw [List.filter_eq_nil_iff]
      intro x hx
      simp only [beq_iff_eq]
      exact hpre x hx
    have hpost₁ : post.filter (fun x => x.id == i) = [] := by
      rw [List.filter_eq_nil_iff]
      intro x hx
      simp only [beq_iff_eq]
      exact hpost x hx
    have h1 : ((pre ++ r :: post).filter fun x => x.id == i) = [r] := by
      rw [List.filter_append, List.filter_cons, hpre₁, hpost₁]
      simp [hid]
    have hpre₂ : pre.filter (fun x => !(x.id == i)) = pre := by
      rw [List.filter_eq_self]
      intro x hx
      simp only [Bool.not_eq_true', beq_eq_false_iff_ne, ne_eq]
      exact hpre x hx
    have hpost₂ : post.filter (fun x => !(x.id == i)) = post := by
      rw [List.filter_eq_self]
      intro x hx
      simp only [Bool.not_eq_true', beq_eq_false_iff_ne, ne_eq]
      exact hpost x hx
    have h2 : ((pre ++ r :: post).filter fun x => !(x.id == i)) = pre ++ post := by
      rw [List.filter_append, List.filter_cons, hpre₂, hpost₂]
      simp [hid]
    rw [deleteReadme, h1, h2, if_neg (by simp)]
  · constructor
    · rintro ⟨e, he⟩ r hr hid
      have hmem : r ∈ rows.filter fun x => x.id == i :=
        List.mem_filter.mpr ⟨hr, by simp [hid]⟩
      have hne : ¬ (rows.filter fun x => x.id == i).length = 0 := by
        intro h0
        rw [List.length_eq_zero] at h0
        rw [h0] at hmem
        exact absurd hmem (List.not_mem_nil r)
      rw [deleteReadme, if_neg hne] at he
      simp at he
    · intro hno
      exact ⟨_, deleteReadme_no_match rows i hno⟩

def c9r1 : ReadmeRecord :=
  ⟨1, strL "https://github.com/a/b", strL "b", strL "# b"⟩

def c9r2 : ReadmeRecord :=
  ⟨2, strL "https://github.com/c/d", strL "d", strL "# d"⟩

def c9Rows : List ReadmeRecord := [c9r1, c9r2]

/-- Witness for C9 on a concrete two-row table. -/
theorem c9_delete_by_id_witness :
    deleteReadme c9Rows 3 = .error (strL "README with ID 3 not found") ∧
    deleteReadme c9Rows 1 = .ok ([c9r2], true) :=
  ⟨((c9_delete_by_id c9Rows 3).1 (by decide)).trans
     (congrArg Except.error (by decide)),
   (c9_delete_by_id c9Rows 1).2.1 [] c9r1 [c9r2] rfl rfl (by decide) (by decide)⟩

/-! ## Claims C8 and C10 — the Markdown renderer -/

/-- The RepositoryInfo record the renderer consumes. -/
structure RepositoryInfo where
  name : List Char
  full_name : List Char
  description : Option (List Char)
  html_url : List Char
  default_branch : List Char
  created_at : List Char
  updated_at : List Char
  language : Option (List Char)
  stars_count : Nat
  forks_count : Nat
deriving DecidableEq, Repr

/-- JS `x || dflt` on a nullable string: null and the empty string are
falsy. -/
def orFalsy (o : Option (List Char)) (dflt : List Char) : List Char :=
  match o with
  | none => dflt
  | some s => if s.isEmpty then dflt else s

/-- JS `s || dflt` on a plain string. -/
def orFalsyStr (s dflt : List Char) : List Char :=
  if s.isEmpty then dflt else s

/-- Decimal rendering of a Nat. -/
def natToStr (n : Nat) : List Char := strL (toString n)

def toLowerStr (l : List Char) : List Char := l.map toLowerC

/-- Groups of three from a reversed digit list. -/
def chunk3Rev : List Char → List (List Char)
  | [] => []
  | [a] => [[a]]
  | [a, b] => [[a, b]]
  | a :: b :: c :: rest => [a, b, c] :: chunk3Rev rest

/-- JS `n.toLocaleString()` for a nonnegative integer in the en-US default
locale: decimal digits with comma thousands separators. -/
def toLocaleStringNat (n : Nat) : List Char :=
  (joinWith [','] (chunk3Rev (natToStr n).reverse)).reverse

/-- Unreserved characters of `encodeURIComponent` (39 is the apostrophe). -/
def isUriUnreserved (c : Char) : Bool :=
  isAsciiLetterC c || (48 ≤ c.toNat && c.toNat ≤ 57) ||
    c == '-' || c == '_' || c == '.' || c == '!' || c == '~' || c == '*' ||
    c.toNat == 39 || c == '(' || c == ')'

def hexDigitC (n : Nat) : Char :=
  if n < 10 then Char.ofNat (48 + n) else Char.ofNat (55 + n)

/-- ASCII fragment of JS `encodeURIComponent`: unreserved characters pass
through, every other character is percent-encoded (multi-byte UTF-8
escaping of code points above 127 is not modelled). -/
def encodeURIComponentM (l : List Char) : List Char :=
  l.flatMap fun c =>
    if isUriUnreserved c then [c]
    else ['%', hexDigitC (c.toNat / 16 % 16), hexDigitC (c.toNat % 16)]

def monthNameEnUS : Nat → List Char
  | 1 => strL "January"
  | 2 => strL "February"
  | 3 => strL "March"
  | 4 => strL "April"
  | 5 => strL "May"
  | 6 => strL "June"
  | 7 => strL "July"
  | 8 => strL "August"
  | 9 => strL "September"
  | 10 => strL "October"
  | 11 => strL "November"
  | 12 => strL "December"
  | _ => strL "Invalid Date"

def digitVal (c : Char) : Nat := c.toNat - 48

/-- `new Date(iso).toLocaleDateString('en-US', {year, month: 'long', day})`
for an ISO `YYYY-MM-DD...` string: long month name, day without leading
zero, comma, year (time-zone shifts are not modelled). -/
def formatDateEnUS (iso : List Char) : List Char :=
  monthNameEnUS (10 * digitVal (iso.getD 5 '0') + digitVal (iso.getD 6 '0')) ++
    ' ' :: natToStr (10 * digitVal (iso.getD 8 '0') + digitVal (iso.getD 9 '0')) ++
    strL ", " ++ iso.take 4

/-- The wall-clock instant `new Date()` observes in generateFooter — the
renderer's only impure input, passed explicitly. -/
structure DateTime where
  year : Nat
  month : Nat
  day : Nat
  hour : Nat
  minute : Nat
deriving DecidableEq, Repr

def twoDigit (n : Nat) : List Char :=
  if n < 10 then '0' :: natToStr n else natToStr n

/-- `now.toLocaleDateString('en-US', {year, month: 'long', day,
hour: '2-digit', minute: '2-digit'})`. -/
def formatDateTimeEnUS (t : DateTime) : List Char :=
  monthNameEnUS t.month ++ ' ' :: natToStr t.day ++ strL ", " ++
    natToStr t.year ++ strL " at " ++
    twoDigit (if t.hour % 12 = 0 then 12 else t.hour % 12) ++
    ':' :: twoDigit t.minute ++ (if t.hour < 12 then strL " AM" else strL " PM")

/-- Lines 255–257 of part_003. -/
def generateHeader (repoInfo : RepositoryInfo) : List Char :=
  strL "# " ++ repoInfo.name ++ strL "\n\n> " ++
    orFalsy repoInfo.description (strL "A GitHub repository")

/-- Lines 260–264 of part_003. -/
def generateDescription (repoInfo : RepositoryInfo) : List Char :=
  match repoInfo.description with
  | none => []
  | some d => if d.isEmpty then [] else strL "## Description\n\n" ++ d

/-- Lines 266–281 of part_003: an optional Language badge, then Stars and
Forks badges, joined with a space. -/
def generateBadges (repoInfo : RepositoryInfo) : List Char :=
  (fun badges =>
    if 0 < badges.length then strL "## Badges\n\n" ++ joinWith [' '] badges
    else [])
  ((match repoInfo.language with
    | none => []
    | some lang =>
      if lang.isEmpty then []
      else [strL "![Language](https://img.shields.io/badge/Language-" ++
        encodeURIComponentM lang ++ strL "-blue)"]) ++
   [strL "![Stars](https://img.shields.io/badge/Stars-" ++
      natToStr repoInfo.stars_count ++ strL "-yellow)",
    strL "![Forks](https://img.shields.io/badge/Forks-" ++
      natToStr repoInfo.forks_count ++ strL "-green)"])

/-- Lines 283–308 of part_003: the Repository Information table. -/
def generateRepositoryInfo (repoInfo : RepositoryInfo) : List Char :=
  strL "## Repository Information\n\n| Property | Value |\n|----------|--------|\n| **Repository** | [" ++
    repoInfo.full_name ++ strL "](" ++ repoInfo.html_url ++
    strL ") |\n| **Default Branch** | " ++ repoInfo.default_branch ++
    strL " |\n| **Primary Language** | " ++
    orFalsy repoInfo.language (strL "Not specified") ++
    strL " |\n| **Stars** | " ++ toLocaleStringNat repoInfo.stars_count ++
    strL " |\n| **Forks** | " ++ toLocaleStringNat repoInfo.forks_count ++
    strL " |\n| **Created** | " ++ formatDateEnUS repoInfo.created_at ++
    strL " |\n| **Last Updated** | " ++ formatDateEnUS repoInfo.updated_at ++
    strL " |"

/-- Lines 348–383 of part_003: the extension-to-icon table, in order. -/
def iconMap : List (List Char × List Char) :=
  [(strL "js", strL "🟨"), (strL "ts", strL "🔷"), (strL "json", strL "📋"),
   (strL "md", strL "📝"), (strL "txt", strL "📄"), (strL "py", strL "🐍"),
   (strL "java", strL "☕"), (strL "html", strL "🌐"), (strL "css", strL "🎨"),
   (strL "yml", strL "⚙️"), (strL "yaml", strL "⚙️"), (strL "xml", strL "📰"),
   (strL "sql", strL "🗄️"), (strL "sh", strL "🐚"),
   (strL "dockerfile", strL "🐳"), (strL "gitignore", strL "🚫"),
   (strL "license", strL "📜")]

def lookupIcon : List (List Char × List Char) → List Char → Option (List Char)
  | [], _ => none
  | (k, v) :: rest, x => if k = x then some v else lookupIcon rest x

/-- Lines 348–383 of part_003 (getFileIcon): directories get the folder
icon; README files are special-cased; otherwise the lowercased last
`.`-segment of the name selects from the table, defaulting to the plain
document icon. -/
def getFileIcon (node : FileTreeNode) : List Char :=
  if node.type = .directory then strL "📁"
  else if toLowerStr node.name = strL "readme.md" ∨
      toLowerStr node.name = strL "readme" then strL "📖"
  else
    (lookupIcon iconMap
      (toLowerStr ((splitOnC '.' node.name).getLastD []))).getD (strL "📄")

mutual

/-- One node's block of lines 318–330 of part_003: the node's own line is
prefix, connector (corner `└── ` when last, branch `├── ` otherwise), icon,
space, name; then, when the node has a nonempty children array, its
children's block with the prefix extended by `    ` or `│   `. -/
def genNodeText (pfx : List Char) (isLast : Bool) : FileTreeNode → List Char
  | .mk name t p c =>
    pfx ++ (if isLast then strL "└── " else strL "├── ") ++
      getFileIcon (.mk name t p c) ++ ' ' :: name ++ '\n' ::
      (match c with
       | some cs =>
         if cs.isEmpty then []
         else genNodeTextForest
           (pfx ++ (if isLast then strL "    " else strL "│   ")) cs
       | none => [])

/-- The forEach of lines 318–330: the last node gets the corner connector. -/
def genNodeTextForest (pfx : List Char) : List FileTreeNode → List Char
  | [] => []
  | [n] => genNodeText pfx true n
  | n :: m :: rest => genNodeText pfx false n ++ genNodeTextForest pfx (m :: rest)

end

/-- Lines 309–332 of part_003 (generateFileTreeText at the root call):
a `.` line when the forest is nonempty, then the forest's block. -/
def generateFileTreeText (nodes : List FileTreeNode) : List Char :=
  (if nodes.isEmpty then [] else strL ".\n") ++ genNodeTextForest [] nodes

/-- JS `s.trimEnd()`. -/
def trimEndC (l : List Char) : List Char :=
  (l.reverse.dropWhile fun c => c.isWhitespace).reverse

/-- Lines 296–307 of part_003 (generateFileStructure). -/
def generateFileStructure (fileTree : List FileTreeNode) : List Char :=
  if fileTree.isEmpty then
    strL "## Project Structure\n\n*No file structure available*"
  else
    strL "## Project Structure\n\n```\n" ++
      trimEndC (generateFileTreeText fileTree) ++ strL "\n```"

def addUnique (l : List (List Char)) (x : List Char) : List (List Char) :=
  if l.contains x then l else l ++ [x]

mutual

/-- The traverse of analyzeFileStructure (lines 400–434 of part_003), with
accumulator (totalFiles, totalDirectories, insertion-ordered extension
set). -/
def analyzeNode (acc : Nat × Nat × List (List Char)) :
    FileTreeNode → Nat × Nat × List (List Char)
  | .mk name t _ c =>
    analyzeChildren
      (match t with
       | .file =>
         (acc.1 + 1, acc.2.1,
          (fun ext => if ext.isEmpty then acc.2.2 else addUnique acc.2.2 ext)
            (toLowerStr ((splitOnC '.' name).getLastD [])))
       | .directory => (acc.1, acc.2.1 + 1, acc.2.2))
      c

def analyzeChildren (acc : Nat × Nat × List (List Char)) :
    Option (List FileTreeNode) → Nat × Nat × List (List Char)
  | none => acc
  | some cs => analyzeForest acc cs

def analyzeForest (acc : Nat × Nat × List (List Char)) :
    List FileTreeNode → Nat × Nat × List (List Char)
  | [] => acc
  | n :: rest => analyzeForest (analyzeNode acc n) rest

end

/-- Lines 385–398 of part_003 (generateTechnicalDetails); the extension
list is capped at 10 as in analyzeFileStructure's return. -/
def generateTechnicalDetails (repoInfo : RepositoryInfo)
    (fileTree : List FileTreeNode) : List Char :=
  (fun stats =>
    if stats.1 = 0 ∧ stats.2.1 = 0 then []
    else
      strL "## Technical Overview\n\n- **Total Files**: " ++ natToStr stats.1 ++
        strL "\n- **Total Directories**: " ++ natToStr stats.2.1 ++
        strL "\n- **File Types**: " ++
        orFalsyStr (joinWith (strL ", ") (stats.2.2.take 10)) (strL "Mixed") ++
        strL "\n- **Repository Size**: Analysis based on " ++
        natToStr stats.1 ++ strL " files")
  (analyzeForest (0, 0, []) fileTree)

/-- Lines 436–462 of part_003 (generateGettingStarted). -/
def generateGettingStarted (repoInfo : RepositoryInfo) : List Char :=
  strL "## Getting Started\n\nTo get started with this repository:\n\n1. **Clone the repository**\n   ```bash\n   git clone " ++
    repoInfo.html_url ++ strL ".git\n   cd " ++ repoInfo.name ++
    strL "\n   ```\n\n2. **Explore the codebase**\n   - Check out the project structure above\n   - Read any additional documentation in the repository\n   - Look for configuration files like `package.json`, `requirements.txt`, or similar\n\n3. **Follow repository-specific instructions**\n   - Refer to the original repository for detailed setup instructions\n   - Check for `README.md`, `CONTRIBUTING.md`, or `INSTALL.md` files\n\n## Contributing\n\nFor contribution guidelines, please refer to the original repository at [" ++
    repoInfo.html_url ++ strL "](" ++ repoInfo.html_url ++ strL ")."

def footerHead : List Char :=
  strL "---\n\n*This README was automatically generated on "

def footerTail : List Char :=
  strL "*\n\n*For the most up-to-date information, please visit the [original repository](https://github.com).*"

/-- Lines 464–477 of part_003 (generateFooter), with `new Date()` passed in
as `now`. -/
def generateFooter (now : DateTime) : List Char :=
  footerHead ++ formatDateTimeEnUS now ++ footerTail

/-- The section list of generateMarkdownReadme (lines 238–247). -/
def readmeSections (repoInfo : RepositoryInfo) (fileTree : List FileTreeNode)
    (now : DateTime) : List (List Char) :=
  [generateHeader repoInfo, generateDescription repoInfo,
   generateBadges repoInfo, generateRepositoryInfo repoInfo,
   generateFileStructure fileTree,
   generateTechnicalDetails repoInfo fileTree,
   generateGettingStarted repoInfo, generateFooter now]

/-- Lines 232–254 of part_003: drop falsy (empty) sections and join with a
blank line. -/
def generateMarkdownReadme (repoInfo : RepositoryInfo)
    (fileTree : List FileTreeNode) (now : DateTime) : List Char :=
  joinWith (strL "\n\n")
    ((readmeSections repoInfo fileTree now).filter fun s => !s.isEmpty)

theorem joinWith_snoc (sep x : List Char) :
    ∀ (l : List (List Char)) (a : List Char),
    joinWith sep (a :: l ++ [x]) = joinWith sep (a :: l) ++ sep ++ x := by
  intro l
  induction l with
  | nil => intro a; rfl
  | cons b l ih =>
    intro a
    rw [show a :: (b :: l) ++ [x] = a :: (b :: (l ++ [x])) from rfl]
    rw [joinWith_cons_cons]
    rw [show b :: (l ++ [x]) = b :: l ++ [x] from rfl, ih b]
    rw [joinWith_cons_cons]
    simp [List.append_assoc]

theorem filtered_sections_shape (repoInfo : RepositoryInfo)
    (fileTree : List FileTreeNode) (now : DateTime) :
    (readmeSections repoInfo fileTree now).filter (fun s => !s.isEmpty) =
      generateHeader repoInfo ::
        ([generateDescription repoInfo, generateBadges repoInfo,
          generateRepositoryInfo repoInfo, generateFileStructure fileTree,
          generateTechnicalDetails repoInfo fileTree,
          generateGettingStarted repoInfo].filter fun s => !s.isEmpty) ++
        [generateFooter now] := by
  have hhead : (!(generateHeader repoInfo).isEmpty) = true := by
    rw [generateHeader]
    rw [show strL "# " = '#' :: strL " " from rfl]
    rfl
  have hfoot : (!(generateFooter now).isEmpty) = true := by
    rw [generateFooter]
    rw [show footerHead =
      '-' :: strL "--\n\n*This README was automatically generated on " from rfl]
    rfl
  rw [readmeSections]
  rw [show ([generateHeader repoInfo, generateDescription repoInfo,
      generateBadges repoInfo, generateRepositoryInfo repoInfo,
      generateFileStructure fileTree,
      generateTechnicalDetails repoInfo fileTree,
      generateGettingStarted repoInfo, generateFooter now] : List (List Char)) =
    generateHeader repoInfo ::
      ([generateDescription repoInfo, generateBadges repoInfo,
        generateRepositoryInfo repoInfo, generateFileStructure fileTree,
        generateTechnicalDetails repoInfo fileTree,
        generateGettingStarted repoInfo] ++ [generateFooter now]) from rfl]
  rw [List.filter_cons, if_pos hhead, List.filter_append]
  rw [show [generateFooter now].filter (fun s => !s.isEmpty) =
    [generateFooter now] from by rw [List.filter_cons, if_pos hfoot]; rfl]
  rfl

/-- C8: the renderer is a pure function of the metadata, the tree and the
wall-clock instant, and the two outputs for the same metadata and tree at
two instants are byte-identical except for the formatted timestamp spliced
into the footer line: one common prefix and one common suffix surround it
in both outputs. -/
theorem c8_renderer_pure (repoInfo : RepositoryInfo)
    (fileTree : List FileTreeNode) (t₁ t₂ : DateTime) :
    ∃ pre post,
      generateMarkdownReadme repoInfo fileTree t₁ =
        pre ++ formatDateTimeEnUS t₁ ++ post ∧
      generateMarkdownReadme repoInfo fileTree t₂ =
        pre ++ formatDateTimeEnUS t₂ ++ post := by
  have key : ∀ t : DateTime,
      generateMarkdownReadme repoInfo fileTree t =
        (joinWith (strL "\n\n") (generateHeader repoInfo ::
          ([generateDescription repoInfo, generateBadges repoInfo,
            generateRepositoryInfo repoInfo, generateFileStructure fileTree,
            generateTechnicalDetails repoInfo fileTree,
            generateGettingStarted repoInfo].filter fun s => !s.isEmpty)) ++
          strL "\n\n" ++ footerHead) ++
        formatDateTimeEnUS t ++ footerTail := by
    intro t
    rw [generateMarkdownReadme, filtered_sections_shape, joinWith_snoc,
      generateFooter]
    simp [List.append_assoc]
  exact ⟨_, _, key t₁, key t₂⟩

mutual

/-- The expected line list of one node's block: its own line (prefix,
connector, icon, space, name), then its children's lines. -/
def nodeLines (pfx : List Char) (isLast : Bool) : FileTreeNode → List (List Char)
  | .mk name t p c =>
    (pfx ++ (if isLast then strL "└── " else strL "├── ") ++
       getFileIcon (.mk name t p c) ++ ' ' :: name) ::
      (match c with
       | some cs =>
         if cs.isEmpty then []
         else forestLines (pfx ++ (if isLast then strL "    " else strL "│   ")) cs
       | none => [])

/-- The expected line list of a forest's block. -/
def forestLines (pfx : List Char) : List FileTreeNode → List (List Char)
  | [] => []
  | [n] => nodeLines pfx true n
  | n :: m :: rest => nodeLines pfx false n ++ forestLines pfx (m :: rest)

end

mutual

def sizeNode : FileTreeNode → Nat
  | .mk _ _ _ c => 1 + (match c with | none => 0 | some cs => sizeForest cs)

def sizeForest : List FileTreeNode → Nat
  | [] => 0
  | n :: rest => sizeNode n + sizeForest rest

end

theorem sizeNode_pos (n : FileTreeNode) : 1 ≤ sizeNode n := by
  cases n with
  | mk name t p c =>
    cases c with
    | none => simp [sizeNode]
    | some cs => simp [sizeNode]

theorem genText_lines (k : Nat) :
    (∀ (n : FileTreeNode) (pfx : List Char) (b : Bool), sizeNode n ≤ k →
      genNodeText pfx b n = (nodeLines pfx b n).flatMap (fun l => l ++ ['\n'])) ∧
    (∀ (nodes : List FileTreeNode) (pfx : List Char), sizeForest nodes ≤ k →
      genNodeTextForest pfx nodes =
        (forestLines pfx nodes).flatMap (fun l => l ++ ['\n'])) := by
  induction k with
  | zero =>
    constructor
    · intro n pfx b hle
      exact absurd hle (by have h1 := sizeNode_pos n; omega)
    · intro nodes pfx hle
      cases nodes with
      | nil => simp [genNodeTextForest, forestLines]
      | cons n rest =>
        exact absurd hle
          (by simp only [sizeForest]; have h1 := sizeNode_pos n; omega)
  | succ k ih =>
    have hnode : ∀ (n : FileTreeNode) (pfx : List Char) (b : Bool),
        sizeNode n ≤ k + 1 →
        genNodeText pfx b n = (nodeLines pfx b n).flatMap (fun l => l ++ ['\n']) := by
      intro n pfx b hle
      cases n with
      | mk name t p c =>
        cases c with
        | none => simp [genNodeText, nodeLines]
        | some cs =>
          cases cs with
          | nil => simp [genNodeText, nodeLines]
          | cons c₀ cr =>
            simp only [sizeNode] at hle
            simp only [genNodeText, nodeLines]
            rw [ih.2 (c₀ :: cr) _ (by omega)]
            simp [List.append_assoc]
    refine ⟨hnode, ?_⟩
    intro nodes pfx hle
    cases nodes with
    | nil => simp [genNodeTextForest, forestLines]
    | cons n rest =>
      cases rest with
      | nil =>
        simp only [sizeForest] at hle
        simp only [genNodeTextForest, forestLines]
        exact hnode n pfx true (by omega)
      | cons m rest₂ =>
        simp only [sizeForest] at hle
        have hpm := sizeNode_pos m
        have hpn := sizeNode_pos n
        simp only [genNodeTextForest, forestLines, List.flatMap_append]
        rw [hnode n pfx false (by omega),
          ih.2 (m :: rest₂) pfx (by simp only [sizeForest]; omega)]

theorem genNodeTextForest_eq_lines (nodes : List FileTreeNode) (pfx : List Char) :
    genNodeTextForest pfx nodes =
      (forestLines pfx nodes).flatMap (fun l => l ++ ['\n']) :=
  (genText_lines (sizeForest nodes)).2 nodes pfx (le_refl _)

theorem lookupIcon_getD_nl_free :
    ∀ (m : List (List Char × List Char)) (x d : List Char),
    (∀ kv ∈ m, ¬ '\n' ∈ kv.2) → ¬ '\n' ∈ d →
    ¬ '\n' ∈ (lookupIcon m x).getD d
  | [], _, _, _, hd => hd
  | (k, v) :: rest, x, d, hm, hd => by
    rw [lookupIcon]
    by_cases hk : k = x
    · rw [if_pos hk]
      exact hm (k, v) (by simp)
    · rw [if_neg hk]
      exact lookupIcon_getD_nl_free rest x d
        (fun kv hkv => hm kv (by simp [hkv])) hd

theorem getFileIcon_nl_free (n : FileTreeNode) : ¬ '\n' ∈ getFileIcon n := by
  rw [getFileIcon]
  by_cases h1 : n.type = .directory
  · rw [if_pos h1]
    decide
  · rw [if_neg h1]
    by_cases h2 : toLowerStr n.name = strL "readme.md" ∨
        toLowerStr n.name = strL "readme"
    · rw [if_pos h2]
      decide
    · rw [if_neg h2]
      exact lookupIcon_getD_nl_free iconMap _ _ (by decide) (by decide)

theorem lines_shape (k : Nat) :
    (∀ (n : FileTreeNode) (pfx : List Char) (b : Bool) (l : List Char),
      sizeNode n ≤ k → l ∈ nodeLines pfx b n →
      ∃ (nd : FileTreeNode) (p : List Char) (isLast : Bool),
        nd ∈ nodeNodes n ∧
        l = p ++ (if isLast then strL "└── " else strL "├── ") ++
            getFileIcon nd ++ ' ' :: nd.name ∧
        (¬ '\n' ∈ pfx → ¬ '\n' ∈ p)) ∧
    (∀ (nodes : List FileTreeNode) (pfx : List Char) (l : List Char),
      sizeForest nodes ≤ k → l ∈ forestLines pfx nodes →
      ∃ (nd : FileTreeNode) (p : List Char) (isLast : Bool),
        nd ∈ forestNodes nodes ∧
        l = p ++ (if isLast then strL "└── " else strL "├── ") ++
            getFileIcon nd ++ ' ' :: nd.name ∧
        (¬ '\n' ∈ pfx → ¬ '\n' ∈ p)) := by
  induction k with
  | zero =>
    constructor
    · intro n pfx b l hle
      exact absurd hle (by have h1 := sizeNode_pos n; omega)
    · intro nodes pfx l hle hl
      cases nodes with
      | nil => simp [forestLines] at hl
      | cons n rest =>
        exact absurd hle
          (by simp only [sizeForest]; have h1 := sizeNode_pos n; omega)
  | succ k ih =>
    have hnode : ∀ (n : FileTreeNode) (pfx : List Char) (b : Bool) (l : List Char),
        sizeNode n ≤ k + 1 → l ∈ nodeLines pfx b n →
        ∃ (nd : FileTreeNode) (p : List Char) (isLast : Bool),
          nd ∈ nodeNodes n ∧
          l = p ++ (if isLast then strL "└── " else strL "├── ") ++
              getFileIcon nd ++ ' ' :: nd.name ∧
          (¬ '\n' ∈ pfx → ¬ '\n' ∈ p) := by
      intro n pfx b l hle hl
      cases n with
      | mk name t p c =>
        cases c with
        | none =>
          simp only [nodeLines, List.mem_singleton] at hl
          exact ⟨.mk name t p none, pfx, b, by simp [nodeNodes],
            by rw [hl]; rfl, fun h => h⟩
        | some cs =>
          cases cs with
          | nil =>
            simp only [nodeLines, List.isEmpty_nil, eq_self_iff_true, if_true,
              List.mem_singleton] at hl
            exact ⟨.mk name t p (some []), pfx, b, by simp [nodeNodes],
              by rw [hl]; rfl, fun h => h⟩
          | cons c₀ cr =>
            simp only [sizeNode] at hle
            simp only [nodeLines, List.mem_cons] at hl
            rcases hl with rfl | hl
            · exact ⟨.mk name t p (some (c₀ :: cr)), pfx, b,
                by simp [nodeNodes], rfl, fun h => h⟩

            · simp only [List.isEmpty_cons, Bool.false_eq_true, if_false] at hl
              obtain ⟨nd, pr, isL, hmem, heq, hp⟩ :=
                ih.2 (c₀ :: cr) _ l (by omega) hl
              refine ⟨nd, pr, isL, ?_, heq, ?_⟩
              · simp only [nodeNodes]
                exact List.mem_cons_of_mem _ hmem
              · intro hpfx
                refine hp ?_
                intro hc
                rcases List.mem_append.mp hc with hc | hc
                · exact hpfx hc
                · revert hc
                  cases b <;> decide
    refine ⟨hnode, ?_⟩
    intro nodes pfx l hle hl
    cases nodes with
    | nil => simp [forestLines] at hl
    | cons n rest =>
      cases rest with
      | nil =>
        simp only [sizeForest] at hle
        simp only [forestLines] at hl
        obtain ⟨nd, pr, isL, hmem, heq, hp⟩ := hnode n pfx true l (by omega) hl
        refine ⟨nd, pr, isL, ?_, heq, hp⟩
        simp only [forestNodes]
        exact List.mem_append_left _ hmem
      | cons m rest₂ =>
        simp only [sizeForest] at hle
        have hpm := sizeNode_pos m
        have hpn := sizeNode_pos n
        simp only [forestLines, List.mem_append] at hl
        rcases hl with hl | hl
        · obtain ⟨nd, pr, isL, hmem, heq, hp⟩ := hnode n pfx false l (by omega) hl
          refine ⟨nd, pr, isL, ?_, heq, hp⟩
          simp only [forestNodes]
          exact List.mem_append_left _ hmem
        · obtain ⟨nd, pr, isL, hmem, heq, hp⟩ :=
            ih.2 (m :: rest₂) pfx l (by simp only [sizeForest]; omega) hl
          refine ⟨nd, pr, isL, ?_, heq, hp⟩
          simp only [forestNodes]
          exact List.mem_append_right _ hmem

theorem splitOnC_flat_lines (c : Char) :
    ∀ (lines : List (List Char)), (∀ l ∈ lines, c ∉ l) →
    splitOnC c (lines.flatMap (fun l => l ++ [c])) = lines ++ [[]] := by
  intro lines
  induction lines with
  | nil =>
    intro h
    simp [splitOnC, splitOnCA]
  | cons x ls ih =>
    intro h
    rw [List.flatMap_cons]
    rw [show x ++ [c] ++ ls.flatMap (fun l => l ++ [c]) =
      x ++ c :: ls.flatMap (fun l => l ++ [c]) from by simp]
    rw [splitOnC_append_sep c x _ (h x (by simp))]
    rw [ih (fun l hl => h l (by simp [hl]))]
    rfl

theorem forestLines_root_nl_free (nodes : List FileTreeNode)
    (hnames : ∀ m ∈ forestNodes nodes, ¬ '\n' ∈ m.name) :
    ∀ l ∈ forestLines [] nodes, '\n' ∉ l := by
  intro l hl
  obtain ⟨nd, pr, isL, hmem, heq, hp⟩ :=
    (lines_shape (sizeForest nodes)).2 nodes [] l (le_refl _) hl
  subst heq
  intro hc
  rcases List.mem_append.mp hc with hc | hc
  · rcases List.mem_append.mp hc with hc | hc
    · rcases List.mem_append.mp hc with hc | hc
      · exact hp (by simp) hc
      · revert hc
        cases isL <;> decide
    · exact getFileIcon_nl_free nd hc
  · rcases List.mem_cons.mp hc with hc | hc
    · exact absurd hc (by decide)
    · exact hnames nd hmem hc

/-- C10: for the empty forest the Project Structure section is exactly the
placeholder with no fenced block; for a nonempty forest the section wraps
the tree text in a fence, the tree text splits on newlines into the bare
root-indicator line `.` followed by the node lines (and the empty trailing
segment), and every node line is an accumulated prefix, a corner or branch
connector, the node's icon, a space, and the node's name. -/
theorem c10_tree_text (nodes : List FileTreeNode) :
    (nodes = [] →
      generateFileStructure nodes =
        strL "## Project Structure\n\n*No file structure available*" ∧
      includesSub (strL "```") (generateFileStructure nodes) = false) ∧
    (nodes ≠ [] →
      generateFileStructure nodes =
        strL "## Project Structure\n\n```\n" ++
          trimEndC (generateFileTreeText nodes) ++ strL "\n```") ∧
    (nodes ≠ [] → (∀ m ∈ forestNodes nodes, ¬ '\n' ∈ m.name) →
      splitOnC '\n' (generateFileTreeText nodes) =
        strL "." :: (forestLines [] nodes ++ [[]])) ∧
    (∀ (pfx l : List Char), l ∈ forestLines pfx nodes →
      ∃ (nd : FileTreeNode) (p : List Char) (isLast : Bool),
        nd ∈ forestNodes nodes ∧
        l = p ++ (if isLast then strL "└── " else strL "├── ") ++
            getFileIcon nd ++ ' ' :: nd.name) := by
  refine ⟨?_, ?_, ?_, ?_⟩
  · rintro rfl
    exact ⟨rfl, by decide⟩
  · intro hne
    cases nodes with
    | nil => exact absurd rfl hne
    | cons n rest => rfl
  · intro hne hnames
    cases nodes with
    | nil => exact absurd rfl hne
    | cons n rest =>
      rw [show generateFileTreeText (n :: rest) =
        ['.'] ++ '\n' :: genNodeTextForest [] (n :: rest) from rfl]
      rw [splitOnC_append_sep '\n' ['.'] _ (by decide)]
      rw [genNodeTextForest_eq_lines]
      rw [splitOnC_flat_lines '\n' (forestLines [] (n :: rest))
        (forestLines_root_nl_free (n :: rest) hnames)]
      rfl
  · intro pfx l hl
    obtain ⟨nd, pr, isL, hmem, heq, hp⟩ :=
      (lines_shape (sizeForest nodes)).2 nodes pfx l (le_refl _) hl
    exact ⟨nd, pr, isL, hmem, heq⟩

/-- A concrete two-entry forest: a directory with one file child, then a
file. -/
def c10Nodes : List FileTreeNode :=
  [.mk (strL "src") .directory (strL "src")
     (some [.mk (strL "index.ts") .file (strL "src/index.ts") none]),
   .mk (strL "README.md") .file (strL "README.md") none]

/-- Witness for C10 at a concrete forest and the empty forest. -/
theorem c10_tree_text_witness :
    splitOnC '\n' (generateFileTreeText c10Nodes) =
      strL "." :: (forestLines [] c10Nodes ++ [[]]) ∧
    generateFileStructure [] =
      strL "## Project Structure\n\n*No file structure available*" ∧
    includesSub (strL "```") (generateFileStructure []) = false :=
  ⟨(c10_tree_text c10Nodes).2.2.1 (by simp [c10Nodes]) (by decide),
   ((c10_tree_text []).1 rfl).1,
   ((c10_tree_text []).1 rfl).2⟩
